import Mathlib

/-!
Shallow embedding of the curve-analysis engines of the
Bacterial_Growth_Curves_Analyser repository:

* the baseline/blank detector `find_baseline_points`
  (src/blank-selection-test02.py, the longest-non-decreasing-subsequence
  variant chosen by the design notes), and
* the log-phase detector `detect_log_phase` with its helper
  `_linear_regression` (src/log_phase_tester_smoothed.py).

Sample values and times are modelled as rationals.  The source's
module-level constants `MONO_EPS` and `MONO_T_MAX` are exposed as the
parameters `mono_eps` and `mono_t_max` (the spec's `monotoneEpsilon` and
`monotoneTimeLimit` options).  The one transcendental operation of the
source, `math.log` applied inside the sliding-window regression, is
modelled as an explicit function parameter `ln : ℚ → ℚ`; every theorem
about `detect_log_phase` quantifies over it.
-/

namespace Growth

/-- Python `int()` applied to a rational: truncation toward zero. -/
def pyTrunc (q : ℚ) : ℤ := if 0 ≤ q then ⌊q⌋ else -⌊-q⌋

/-- Insert into an ascending list, keeping it ascending. -/
def insSorted {α : Type} [LinearOrder α] (x : α) : List α → List α
  | [] => [x]
  | y :: ys => if x ≤ y then x :: y :: ys else y :: insSorted x ys

/-- Insertion sort, modelling Python `sorted` (ascending). -/
def insSort {α : Type} [LinearOrder α] (l : List α) : List α := l.foldr insSorted []

/-- Python `statistics.median`: sort, take the middle element for odd
length, the mean of the two middle elements for even length.  (The
source never applies it to an empty list; here the empty list gives 0.) -/
def pyMedian (xs : List ℚ) : ℚ :=
  let s := insSort xs
  let n := s.length
  if n % 2 = 1 then s.getD (n / 2) 0
  else (s.getD (n / 2 - 1) 0 + s.getD (n / 2) 0) / 2

/-- Python `min` on a list of naturals (0 on the empty list, which the
source never reaches). -/
def pyMinNat : List ℕ → ℕ
  | [] => 0
  | x :: xs => xs.foldl min x

/-- Python `min` on a list of rationals. -/
def pyMinQ : List ℚ → ℚ
  | [] => 0
  | x :: xs => xs.foldl min x

/-- Python `max` on a list of rationals. -/
def pyMaxQ : List ℚ → ℚ
  | [] => 0
  | x :: xs => xs.foldl max x

/-- `defaultdict(list)` grouping in insertion order: append `idx` to the
entry of `key`, creating the entry at the end on first encounter.  The
association list models `bins_dict` with Python's insertion-ordered
iteration. -/
def addToBins (key : ℤ) (idx : ℕ) : List (ℤ × List ℕ) → List (ℤ × List ℕ)
  | [] => [(key, [idx])]
  | (k, l) :: rest =>
    if k = key then (k, l ++ [idx]) :: rest else (k, l) :: addToBins key idx rest

/-- Python `max(bins_dict.items(), key=lambda kv: len(kv[1]))`: scanning
in insertion order, keep the current best and replace it only on a
strictly larger member count, so ties resolve to the first bin
encountered. -/
def pyMaxBySnd : List (ℤ × List ℕ) → ℤ × List ℕ
  | [] => (0, [])
  | x :: xs => xs.foldl (fun b kv => if b.2.length < kv.2.length then kv else b) x

/-- Python `max(runs, key=len)`: first run with maximal length. -/
def pyMaxByLen : List (List ℕ) → List ℕ
  | [] => []
  | x :: xs => xs.foldl (fun b r => if b.length < r.length then r else b) x

/-- Grouping of an index list into maximal blocks of consecutive
integers.  The source builds the same grouping left to right, starting a
new `current_run` whenever the next index differs from the previous
element plus one; this recursion splits at exactly those adjacent
pairs. -/
def splitRuns : List ℕ → List (List ℕ)
  | [] => []
  | [x] => [[x]]
  | x :: y :: rest =>
    match splitRuns (y :: rest) with
    | [] => [[x]]
    | r :: rs => if y = x + 1 then (x :: r) :: rs else [x] :: r :: rs

/-! ### Baseline engine (src/blank-selection-test02.py, find_baseline_points) -/

/-- Line 107: `pre_indices = [i for i, ti in enumerate(t) if ti <= t_pre]`. -/
def preIndices (t : List ℚ) (t_pre : ℚ) : List ℕ :=
  (List.range t.length).filter (fun i => t.getD i 0 ≤ t_pre)

/-- Lines 111-118: histogram of the pre-window values with fixed-width
bins anchored at the minimum pre-window value,
`bin_index = int((val - y_min) / bin_width)`, grouping original indices
per bin in insertion order. -/
def binsOf (t y : List ℚ) (t_pre bin_width : ℚ) : List (ℤ × List ℕ) :=
  let pre := preIndices t t_pre
  let y_min := pyMinQ (pre.map (fun i => y.getD i 0))
  pre.foldl (fun b i => addToBins (pyTrunc ((y.getD i 0 - y_min) / bin_width)) i b) []

/-- Lines 123-125: the baseline level is the median of the values of the
bin with the most members (ties to the first bin encountered). -/
def baselineLevelOf (t y : List ℚ) (t_pre bin_width : ℚ) : ℚ :=
  pyMedian ((pyMaxBySnd (binsOf t y t_pre bin_width)).2.map (fun i => y.getD i 0))

/-- Line 127: pre-window indices whose value lies within `tol` of the
baseline level (already ascending, so the source's `sorted` is the
identity here). -/
def candidateIndicesOf (t y : List ℚ) (t_pre bin_width tol : ℚ) : List ℕ :=
  (preIndices t t_pre).filter
    (fun i => |y.getD i 0 - baselineLevelOf t y t_pre bin_width| ≤ tol)

/-- Lines 131-139: maximal runs of consecutive index positions among the
candidates. -/
def runsOf (t y : List ℚ) (t_pre bin_width tol : ℚ) : List (List ℕ) :=
  splitRuns (candidateIndicesOf t y t_pre bin_width tol)

/-- Line 141: runs of length at least `min_consecutive`. -/
def validRunsOf (t y : List ℚ) (t_pre bin_width tol : ℚ) (min_consecutive : ℕ) :
    List (List ℕ) :=
  (runsOf t y t_pre bin_width tol).filter (fun r => min_consecutive ≤ r.length)

/-- Lines 141-145: the longest qualifying run, or every candidate as a
fallback when no run is long enough. -/
def baselineIndicesOf (t y : List ℚ) (t_pre bin_width tol : ℚ) (min_consecutive : ℕ) :
    List ℕ :=
  if (validRunsOf t y t_pre bin_width tol min_consecutive).isEmpty then
    candidateIndicesOf t y t_pre bin_width tol
  else pyMaxByLen (validRunsOf t y t_pre bin_width tol min_consecutive)

/-- Lines 147-152: pre-window points earlier than the first baseline
index that deviate from the baseline level by more than `tol`. -/
def preExcludedOf (t y : List ℚ) (t_pre bin_width tol : ℚ) (min_consecutive : ℕ) :
    List ℕ :=
  (preIndices t t_pre).filter
    (fun i => i < pyMinNat (baselineIndicesOf t y t_pre bin_width tol min_consecutive) ∧
      tol < |y.getD i 0 - baselineLevelOf t y t_pre bin_width|)

/-- Lines 159-164: the monotonic-cleanup window, `range(start_idx, len(y))`
restricted to times at most `mono_t_max` and to not-yet-excluded
indices. -/
def monoWindowOf (t y : List ℚ) (t_pre bin_width tol : ℚ) (min_consecutive : ℕ)
    (mono_t_max : ℚ) : List ℕ :=
  ((List.range y.length).drop
      (pyMinNat (baselineIndicesOf t y t_pre bin_width tol min_consecutive))).filter
    (fun i => t.getD i 0 ≤ mono_t_max ∧
      i ∉ preExcludedOf t y t_pre bin_width tol min_consecutive)

/-! The longest-non-decreasing-subsequence dynamic program, lines 169-188:
`dp_len[j] = 1` and `prev_idx[j] = -1` initially; for `i < j`, when
`vals[i] <= vals[j] + MONO_EPS` and `dp_len[i] + 1 > dp_len[j]`, set
`dp_len[j] = dp_len[i] + 1` and `prev_idx[j] = i`; `best_end` is the
first position with maximal `dp_len`; the kept positions are obtained by
chasing predecessor pointers from `best_end`. -/

/-- The inner loop over `i < j`: scan the table of earlier positions
(entries are value, dp length, predecessor), keeping the running best
`(dp_len[j], prev_idx[j])`, updating only on a strict improvement. -/
def dpScan (eps vj : ℚ) : ℕ → ℕ × Option ℕ → List (ℚ × ℕ × Option ℕ) → ℕ × Option ℕ
  | _, best, [] => best
  | pos, best, e :: rest =>
    if e.1 ≤ vj + eps ∧ best.1 < e.2.1 + 1 then
      dpScan eps vj (pos + 1) (e.2.1 + 1, some pos) rest
    else dpScan eps vj (pos + 1) best rest

/-- The DP table for the first `j` positions of `vals`: each entry holds
the value, its `dp_len` and its `prev_idx` (`none` for `-1`). -/
def dpTab (eps : ℚ) (vals : List ℚ) : ℕ → List (ℚ × ℕ × Option ℕ)
  | 0 => []
  | j + 1 =>
    let prev := dpTab eps vals j
    prev ++ [(vals.getD j 0, dpScan eps (vals.getD j 0) 0 (1, none) prev)]

/-- The full DP table. -/
def dpTable (eps : ℚ) (vals : List ℚ) : List (ℚ × ℕ × Option ℕ) :=
  dpTab eps vals vals.length

/-- Lines 174-182: `best_end`, the first position with maximal `dp_len`
(starting from position 0, replacing only on strict improvement). -/
def bestEndGo : ℕ → ℕ × ℕ → List (ℚ × ℕ × Option ℕ) → ℕ
  | _, best, [] => best.1
  | pos, best, e :: rest =>
    if best.2 < e.2.1 then bestEndGo (pos + 1) (pos, e.2.1) rest
    else bestEndGo (pos + 1) best rest

/-- First position with maximal `dp_len` in the table. -/
def bestEnd (tbl : List (ℚ × ℕ × Option ℕ)) : ℕ := bestEndGo 0 (0, 0) tbl

/-- Lines 183-187: chase predecessor pointers from a position, collecting
the kept local positions (in decreasing order).  The fuel argument is a
bound on the chain length; predecessors strictly decrease, so
`tbl.length` suffices. -/
def chase (tbl : List (ℚ × ℕ × Option ℕ)) : ℕ → ℕ → List ℕ
  | 0, _ => []
  | fuel + 1, pos =>
    pos ::
      match (tbl.getD pos (0, 1, none)).2.2 with
      | none => []
      | some p => chase tbl fuel p

/-- The set of local positions of the window kept by the cleanup DP
(listed in decreasing order). -/
def monoKeepPositions (eps : ℚ) (vals : List ℚ) : List ℕ :=
  chase (dpTable eps vals) (dpTable eps vals).length (bestEnd (dpTable eps vals))

/-- Lines 189-192: window indices whose local position is not kept are
added to the excluded set. -/
def monoAddedOf (t y : List ℚ) (t_pre bin_width tol : ℚ) (min_consecutive : ℕ)
    (mono_eps mono_t_max : ℚ) : List ℕ :=
  let w := monoWindowOf t y t_pre bin_width tol min_consecutive mono_t_max
  let keep := monoKeepPositions mono_eps (w.map (fun i => y.getD i 0))
  (w.enum.filter (fun p => p.1 ∉ keep)).map (fun p => p.2)

/-- src/blank-selection-test02.py lines 98-194, `find_baseline_points`:
returns `(baseline_indices, baseline_level, sorted(excluded_indices))`.
The source's re-check `if not baseline_indices` after run selection is
unreachable (the candidate list is non-empty there) and is omitted; the
pre-excluded and DP-added index lists are disjoint and each ascending,
and `insSort` models the final `sorted(...)` over their union. -/
def find_baseline_points (t y : List ℚ) (t_pre bin_width tol : ℚ)
    (min_consecutive : ℕ) (mono_eps mono_t_max : ℚ) :
    List ℕ × Option ℚ × List ℕ :=
  if (preIndices t t_pre).length < min_consecutive then ([], none, [])
  else if (binsOf t y t_pre bin_width).isEmpty then ([], none, [])
  else if (candidateIndicesOf t y t_pre bin_width tol).isEmpty then
    ([], some (baselineLevelOf t y t_pre bin_width), [])
  else if (monoWindowOf t y t_pre bin_width tol min_consecutive mono_t_max).length ≤ 1 then
    (baselineIndicesOf t y t_pre bin_width tol min_consecutive,
      some (baselineLevelOf t y t_pre bin_width),
      insSort (preExcludedOf t y t_pre bin_width tol min_consecutive))
  else
    (baselineIndicesOf t y t_pre bin_width tol min_consecutive,
      some (baselineLevelOf t y t_pre bin_width),
      insSort (preExcludedOf t y t_pre bin_width tol min_consecutive ++
        monoAddedOf t y t_pre bin_width tol min_consecutive mono_eps mono_t_max))

/-! ### Log-phase engine (src/log_phase_tester_smoothed.py) -/

/-- Lines 115-125 of the source, the `s_tt` accumulator of the OLS loop
over `zip(T, U)`. -/
def sttOf (T U : List ℚ) : ℚ :=
  let mean_t := T.sum / (T.length : ℚ)
  ((T.zip U).map (fun p => (p.1 - mean_t) ^ 2)).sum

/-- src/log_phase_tester_smoothed.py lines 109-140, `_linear_regression`:
ordinary least squares of `U` against `T`; returns
`(slope, intercept, R²)`, or `(None, None, None)` when fewer than two
points are given or when `s_tt` is zero; `R²` is defined as 1 when the
total variance is zero. -/
def _linear_regression (T U : List ℚ) : Option ℚ × Option ℚ × Option ℚ :=
  if T.length < 2 then (none, none, none)
  else
    let n : ℚ := T.length
    let mean_t := T.sum / n
    let mean_u := U.sum / n
    let s_tt := sttOf T U
    let s_tu := ((T.zip U).map (fun p => (p.1 - mean_t) * (p.2 - mean_u))).sum
    if s_tt = 0 then (none, none, none)
    else
      let slope := s_tu / s_tt
      let intercept := mean_u - slope * mean_t
      let ss_tot := (U.map (fun u => (u - mean_u) ^ 2)).sum
      let ss_res := ((T.zip U).map (fun p => (p.2 - (slope * p.1 + intercept)) ^ 2)).sum
      (some slope, some intercept, some (if ss_tot = 0 then 1 else 1 - ss_res / ss_tot))

/-- Line 171: `valid_indices = [i for i, val in enumerate(y) if val >= od_min]`. -/
def validIndicesOf (y : List ℚ) (od_min : ℚ) : List ℕ :=
  (List.range y.length).filter (fun i => od_min ≤ y.getD i 0)

/-- Line 176: the last up-to-5 valid indices. -/
def kTailOf (y : List ℚ) (od_min : ℚ) : List ℕ :=
  let v := validIndicesOf y od_min
  if 5 ≤ v.length then v.drop (v.length - 5) else v

/-- Lines 177-178: the plateau estimate, the median of the tail values
(the tail is non-empty on every path that uses it). -/
def kEstOf (y : List ℚ) (od_min : ℚ) : ℚ :=
  pyMedian ((kTailOf y od_min).map (fun i => y.getD i 0))

/-- Lines 185-207: one iteration of the sliding-window loop, for the
window starting at position `k` of the valid-index list.  The window is
skipped (`none`) when its maximum value is within `frac_k_max` of the
plateau, when any value is non-positive, when the regression is
degenerate, when the slope is non-positive, or when the R-squared is
below `r2_min`; otherwise `(idxs[0], idxs[-1], slope, r2)` is kept. -/
def goodWindowFn (ln : ℚ → ℚ) (t y : List ℚ) (window_size : ℕ)
    (r2_min od_min frac_k_max : ℚ) (k : ℕ) : Option (ℕ × ℕ × ℚ × ℚ) :=
  let valid := validIndicesOf y od_min
  let K := kEstOf y od_min
  let idxs := (valid.drop k).take window_size
  let Y := idxs.map (fun i => y.getD i 0)
  if frac_k_max ≤ pyMaxQ Y / K then none
  else if Y.any (fun v => decide (v ≤ 0)) then none
  else
    let T := idxs.map (fun i => t.getD i 0)
    let U := Y.map ln
    match _linear_regression T U with
    | (some slope, _, some r2) =>
      if slope ≤ 0 then none
      else if r2 < r2_min then none
      else some (idxs.headD 0, idxs.getLastD 0, slope, r2)
    | _ => none

/-- Lines 183-207: the sliding-window loop over every window start. -/
def goodWindowsOf (ln : ℚ → ℚ) (t y : List ℚ) (window_size : ℕ)
    (r2_min od_min frac_k_max : ℚ) : List (ℕ × ℕ × ℚ × ℚ) :=
  (List.range ((validIndicesOf y od_min).length - window_size + 1)).filterMap
    (goodWindowFn ln t y window_size r2_min od_min frac_k_max)

/-- Line 213: `mu_max = max(win[2] for win in good_windows)`. -/
def muMaxOf (ln : ℚ → ℚ) (t y : List ℚ) (window_size : ℕ)
    (r2_min od_min frac_k_max : ℚ) : ℚ :=
  pyMaxQ ((goodWindowsOf ln t y window_size r2_min od_min frac_k_max).map
    (fun w => w.2.2.1))

/-- Python `max(good_windows, key=lambda w: w[2])`: first window with
maximal slope. -/
def pyMaxBySlope : List (ℕ × ℕ × ℚ × ℚ) → ℕ × ℕ × ℚ × ℚ
  | [] => (0, 0, 0, 0)
  | x :: xs => xs.foldl (fun b w => if b.2.2.1 < w.2.2.1 then w else b) x

/-- Lines 216-222: the windows whose slope lies within
`[mu_rel_min * mu_max, mu_rel_max * mu_max]`, falling back to the single
window achieving `mu_max` when that filter empties the set. -/
def logWindowsOf (ln : ℚ → ℚ) (t y : List ℚ) (window_size : ℕ)
    (r2_min od_min frac_k_max mu_rel_min mu_rel_max : ℚ) : List (ℕ × ℕ × ℚ × ℚ) :=
  let good := goodWindowsOf ln t y window_size r2_min od_min frac_k_max
  let mu := pyMaxQ (good.map (fun w => w.2.2.1))
  let lw := good.filter (fun w => mu_rel_min * mu ≤ w.2.2.1 ∧ w.2.2.1 ≤ mu_rel_max * mu)
  if good.isEmpty then [] else if lw.isEmpty then [pyMaxBySlope good] else lw

/-- Lines 225-228: the indices marked as log phase, i.e. the positions of
the boolean mask `is_log` set by filling `range(start_idx, end_idx + 1)`
for every selected window: an index below `len(t)` is marked exactly
when some selected window's span covers it. -/
def logMarkedOf (ln : ℚ → ℚ) (t y : List ℚ) (window_size : ℕ)
    (r2_min od_min frac_k_max mu_rel_min mu_rel_max : ℚ) : List ℕ :=
  (List.range t.length).filter (fun i =>
    (logWindowsOf ln t y window_size r2_min od_min frac_k_max mu_rel_min
        mu_rel_max).any
      (fun w => w.1 ≤ i ∧ i ≤ w.2.1))

/-- Lines 231-240: the scan grouping marked indices into maximal
contiguous runs. -/
def logRunsOf (ln : ℚ → ℚ) (t y : List ℚ) (window_size : ℕ)
    (r2_min od_min frac_k_max mu_rel_min mu_rel_max : ℚ) : List (List ℕ) :=
  splitRuns (logMarkedOf ln t y window_size r2_min od_min frac_k_max mu_rel_min
    mu_rel_max)

/-- src/log_phase_tester_smoothed.py lines 143-256, `detect_log_phase`:
returns `(log_indices, mu_max, mu_mean, K_est)`.  `ln` stands for the
source's `math.log`. -/
def detect_log_phase (ln : ℚ → ℚ) (t y : List ℚ) (window_size : ℕ)
    (r2_min od_min frac_k_max mu_rel_min mu_rel_max : ℚ) :
    List ℕ × Option ℚ × Option ℚ × Option ℚ :=
  if t.length = 0 then ([], none, none, none)
  else if (validIndicesOf y od_min).length < window_size + 1 then ([], none, none, none)
  else if kEstOf y od_min ≤ 0 then ([], none, none, none)
  else if (goodWindowsOf ln t y window_size r2_min od_min frac_k_max).isEmpty then
    ([], none, none, some (kEstOf y od_min))
  else
    let mu_max := muMaxOf ln t y window_size r2_min od_min frac_k_max
    let lw := logWindowsOf ln t y window_size r2_min od_min frac_k_max mu_rel_min
      mu_rel_max
    let runs := logRunsOf ln t y window_size r2_min od_min frac_k_max mu_rel_min
      mu_rel_max
    if runs.isEmpty then ([], some mu_max, none, some (kEstOf y od_min))
    else
      let li := pyMaxByLen runs
      let mus := (lw.filter (fun w =>
        ¬(w.2.1 < li.headD 0 ∨ li.getLastD 0 < w.1))).map (fun w => w.2.2.1)
      (li, some mu_max,
        some (if mus.isEmpty then mu_max else mus.sum / (mus.length : ℚ)),
        some (kEstOf y od_min))

/-! ### Structural lemmas about run grouping -/

/-- The first run produced by `splitRuns` starts with the head of the
input list. -/
lemma splitRuns_head_cons :
    ∀ (xs : List ℕ) (x : ℕ), ∃ r rs, splitRuns (x :: xs) = (x :: r) :: rs := by
  intro xs
  induction xs with
  | nil => intro x; exact ⟨[], [], rfl⟩
  | cons y ys ih =>
    intro x
    obtain ⟨r, rs, h⟩ := ih y
    by_cases hy : y = x + 1
    · refine ⟨y :: r, rs, ?_⟩
      simp only [splitRuns, h]
      rw [if_pos hy]
    · refine ⟨[], (y :: r) :: rs, ?_⟩
      simp only [splitRuns, h]
      rw [if_neg hy]

/-- Every run produced by `splitRuns` is a block of consecutive
integers. -/
lemma splitRuns_chain :
    ∀ (l : List ℕ), ∀ r ∈ splitRuns l, List.Chain' (fun a b => b = a + 1) r := by
  intro l
  induction l with
  | nil => simp [splitRuns]
  | cons x xs ih =>
    cases xs with
    | nil =>
      intro r hr
      simp [splitRuns] at hr
      simp [hr]
    | cons y ys =>
      intro r hr
      obtain ⟨r0, rs0, h⟩ := splitRuns_head_cons ys y
      have hx : splitRuns (x :: y :: ys)
          = if y = x + 1 then (x :: y :: r0) :: rs0 else [x] :: (y :: r0) :: rs0 := by
        simp only [splitRuns, h]
      by_cases hy : y = x + 1
      · rw [hx, if_pos hy] at hr
        rcases List.mem_cons.1 hr with hcase | hcase
        · subst hcase
          rw [List.chain'_cons]
          refine ⟨hy, ih (y :: r0) ?_⟩
          rw [h]
          exact List.mem_cons_self _ _
        · refine ih r ?_
          rw [h]
          exact List.mem_cons_of_mem _ hcase
      · rw [hx, if_neg hy] at hr
        rcases List.mem_cons.1 hr with hcase | hcase
        · subst hcase; simp
        · refine ih r ?_
          rw [h]
          exact hcase

/-- The fold used by `pyMaxByLen` returns one of its inputs. -/
lemma foldl_maxByLen_mem :
    ∀ (xs : List (List ℕ)) (x : List ℕ),
      xs.foldl (fun b r => if b.length < r.length then r else b) x ∈ x :: xs := by
  intro xs
  induction xs with
  | nil => intro x; simp
  | cons r rest ih =>
    intro x
    simp only [List.foldl_cons]
    by_cases h : x.length < r.length
    · rw [if_pos h]
      rcases List.mem_cons.1 (ih r) with hc | hc
      · rw [hc]; exact List.mem_cons_of_mem _ (List.mem_cons_self _ _)
      · exact List.mem_cons_of_mem _ (List.mem_cons_of_mem _ hc)
    · rw [if_neg h]
      rcases List.mem_cons.1 (ih x) with hc | hc
      · rw [hc]; exact List.mem_cons_self _ _
      · exact List.mem_cons_of_mem _ (List.mem_cons_of_mem _ hc)

/-- `pyMaxByLen` of a non-empty list of runs is one of the runs. -/
lemma pyMaxByLen_mem {l : List (List ℕ)} (h : l ≠ []) : pyMaxByLen l ∈ l := by
  cases l with
  | nil => exact absurd rfl h
  | cons x xs => exact foldl_maxByLen_mem xs x

/-- A list that is a chain of consecutive integers is an integer range
starting at its head. -/
lemma chain_consec_range :
    ∀ (l : List ℕ), List.Chain' (fun a b => b = a + 1) l →
      l = List.range' (l.headD 0) l.length := by
  intro l
  induction l with
  | nil => intro _; rfl
  | cons x xs ih =>
    intro h
    cases xs with
    | nil => rfl
    | cons y ys =>
      rw [List.chain'_cons] at h
      have h2 := ih h.2
      have hy : y = x + 1 := h.1
      simp only [List.headD_cons] at h2 ⊢
      have hlen : (x :: y :: ys).length = (y :: ys).length + 1 := rfl
      rw [hlen, List.range'_succ, ← hy]
      exact congrArg (x :: ·) h2

/-- Interval closure for a chain of consecutive integers: anything
between two members is a member. -/
lemma chain_consec_interval {l : List ℕ}
    (h : List.Chain' (fun a b => b = a + 1) l) {a b g : ℕ}
    (ha : a ∈ l) (hb : b ∈ l) (hag : a ≤ g) (hgb : g ≤ b) : g ∈ l := by
  rw [chain_consec_range l h] at ha hb ⊢
  rw [List.mem_range'_1] at ha hb ⊢
  exact ⟨le_trans ha.1 hag, lt_of_le_of_lt hgb hb.2⟩

/-- The first component of `detect_log_phase` is always a chain of
consecutive indices (empty or one maximal run of the mask). -/
lemma detect_log_phase_chain (ln : ℚ → ℚ) (t y : List ℚ) (ws : ℕ)
    (r2m odm fkm m1 m2 : ℚ) :
    List.Chain' (fun a b => b = a + 1)
      ((detect_log_phase ln t y ws r2m odm fkm m1 m2).1) := by
  unfold detect_log_phase
  dsimp only
  split_ifs with h1 h2 h3 h4 h5 h6
  · simp
  · simp
  · simp
  · simp
  · simp
  · refine splitRuns_chain _ _ (pyMaxByLen_mem ?_)
    intro hc
    exact h5 (by unfold logRunsOf; rw [hc]; rfl)
  · refine splitRuns_chain _ _ (pyMaxByLen_mem ?_)
    intro hc
    exact h5 (by unfold logRunsOf; rw [hc]; rfl)

/-! ### Claim C1 -/

/-- C1 (amended).  `logIndices`, when non-empty, is always a single block
of strictly increasing consecutive indices; `baselineIndices` is such a
block whenever some candidate run reaches `min_consecutive`.  (In the
fallback case, in which no run is long enough and every candidate becomes
the baseline, the block property can fail; see `c1_counterexample`.) -/
theorem c1_run_contiguity :
    (∀ (ln : ℚ → ℚ) (t y : List ℚ) (ws : ℕ) (r2m odm fkm m1 m2 : ℚ),
      List.Chain' (fun a b => b = a + 1)
        ((detect_log_phase ln t y ws r2m odm fkm m1 m2).1)) ∧
    (∀ (t y : List ℚ) (tp bw tol : ℚ) (mc : ℕ) (me mt : ℚ),
      validRunsOf t y tp bw tol mc ≠ [] →
      List.Chain' (fun a b => b = a + 1)
        ((find_baseline_points t y tp bw tol mc me mt).1)) := by
  constructor
  · exact detect_log_phase_chain
  · intro t y tp bw tol mc me mt hvr
    have hbase : baselineIndicesOf t y tp bw tol mc
        = pyMaxByLen (validRunsOf t y tp bw tol mc) := by
      unfold baselineIndicesOf
      rw [if_neg]
      intro hc
      exact hvr (List.isEmpty_iff.1 hc)
    have hmem := pyMaxByLen_mem hvr
    have hmem2 : pyMaxByLen (validRunsOf t y tp bw tol mc)
        ∈ splitRuns (candidateIndicesOf t y tp bw tol) :=
      List.mem_of_mem_filter hmem
    have hchain := splitRuns_chain _ _ hmem2
    unfold find_baseline_points
    split_ifs
    · simp
    · simp
    · simp
    · exact hbase ▸ hchain
    · exact hbase ▸ hchain

/-- C1 counterexample.  With `t = [0,1,2]`, `y = [0, 1/20, 0]` and the
default options the candidate runs are the singletons `[0]` and `[2]`,
neither reaching `min_consecutive = 3`, so the fallback makes
`baselineIndices = [0, 2]`: non-empty but not a block of consecutive
indices, refuting the claim for the fallback case. -/
theorem c1_counterexample :
    (find_baseline_points [0, 1, 2] [0, 1/20, 0] 45 (1/1000) (1/1000) 3 0 400).1 ≠ [] ∧
    ¬ List.Chain' (fun a b => b = a + 1)
      ((find_baseline_points [0, 1, 2] [0, 1/20, 0] 45 (1/1000) (1/1000) 3 0 400).1) := by
  have h : (find_baseline_points [0, 1, 2] [0, 1/20, 0] 45 (1/1000) (1/1000)
      3 0 400).1 = [0, 2] := by
    norm_num [find_baseline_points, preIndices, binsOf, baselineLevelOf,
      candidateIndicesOf, runsOf, validRunsOf, baselineIndicesOf, preExcludedOf,
      monoWindowOf, monoAddedOf, monoKeepPositions, dpTable, dpTab, dpScan,
      bestEnd, bestEndGo, chase, addToBins, pyMaxBySnd, pyMaxByLen, pyMedian,
      pyMinNat, pyMinQ, pyMaxQ, pyTrunc, insSort, insSorted, splitRuns,
      List.range_succ, List.filter, abs_le, lt_abs]
  refine ⟨by rw [h]; simp, by rw [h]; simp [List.chain'_cons]⟩

/-- Witness for `c1_run_contiguity` at a concrete input. -/
theorem c1_run_contiguity_witness :
    List.Chain' (fun a b => b = a + 1)
      ((detect_log_phase id [0, 1, 2] [1, 2, 4] 2 (1/2) 1 100 0 100).1) ∧
    (validRunsOf [0, 10, 20, 30] [1/20, 1/20, 1/20, 1] 45 (1/1000) (1/100) 3 ≠ [] ∧
      List.Chain' (fun a b => b = a + 1)
        ((find_baseline_points [0, 10, 20, 30] [1/20, 1/20, 1/20, 1]
          45 (1/1000) (1/100) 3 0 400).1)) := by
  have hvr : validRunsOf [0, 10, 20, 30] [1/20, 1/20, 1/20, 1]
      45 (1/1000) (1/100) 3 ≠ [] := by
    norm_num [validRunsOf, runsOf, candidateIndicesOf, baselineLevelOf, binsOf,
      preIndices, addToBins, pyMaxBySnd, pyMedian, insSort, insSorted, pyMinQ,
      pyTrunc, splitRuns, List.range_succ, List.filter, abs_le, lt_abs]
  exact ⟨c1_run_contiguity.1 id [0, 1, 2] [1, 2, 4] 2 (1/2) 1 100 0 100,
    hvr,
    c1_run_contiguity.2 [0, 10, 20, 30] [1/20, 1/20, 1/20, 1]
      45 (1/1000) (1/100) 3 0 400 hvr⟩

/-! ### Claim C4 -/

/-- C4.  When fewer than `window_size + 1` points are valid
(value at least `od_min`), or when the plateau estimate is non-positive,
`detect_log_phase` returns empty `log_indices` and unknown `mu_max`,
`mu_mean` and `K_est`, raising no error. -/
theorem c4_insufficient_data (ln : ℚ → ℚ) (t y : List ℚ) (ws : ℕ)
    (r2m odm fkm m1 m2 : ℚ)
    (h : (validIndicesOf y odm).length < ws + 1 ∨ kEstOf y odm ≤ 0) :
    detect_log_phase ln t y ws r2m odm fkm m1 m2 = ([], none, none, none) := by
  unfold detect_log_phase
  dsimp only
  split_ifs with h1 h2 h3 h4 h5 h6
  · rfl
  · rfl
  · rfl
  all_goals exact h.elim (fun hh => absurd hh h2) (fun hh => absurd hh h3)

/-- Witness for `c4_insufficient_data`: a series that never exceeds
`od_min` yields the empty result with unknown `K_est`. -/
theorem c4_insufficient_data_witness :
    ((validIndicesOf [0, 0, 0] (1/100)).length < 5 + 1 ∨ kEstOf [0, 0, 0] (1/100) ≤ 0) ∧
    detect_log_phase id [0, 1, 2] [0, 0, 0] 5 (98/100) (1/100) (4/10) (8/10) (105/100)
      = ([], none, none, none) := by
  have hv : (validIndicesOf [0, 0, 0] (1/100)).length < 5 + 1 := by
    norm_num [validIndicesOf, List.range_succ, List.filter]
  exact ⟨Or.inl hv,
    c4_insufficient_data id [0, 1, 2] [0, 0, 0] 5 (98/100) (1/100) (4/10) (8/10)
      (105/100) (Or.inl hv)⟩

/-! ### Claim C5 -/

/-- C5.  For every series (including the empty one) and options in which
fewer than `min_consecutive` points have time at most `t_pre`,
`find_baseline_points` returns empty baseline indices, unknown baseline
level and empty excluded indices; the embedding is total, so no error or
out-of-range indexing occurs. -/
theorem c5_insufficient_pre_window (t y : List ℚ) (tp bw tol : ℚ) (mc : ℕ)
    (me mt : ℚ) (h : (preIndices t tp).length < mc) :
    find_baseline_points t y tp bw tol mc me mt = ([], none, []) := by
  unfold find_baseline_points
  rw [if_pos h]

/-- Witness for `c5_insufficient_pre_window` on the empty series. -/
theorem c5_insufficient_pre_window_witness :
    (preIndices [] 45).length < 3 ∧
    find_baseline_points [] [] 45 (1/1000) (1/1000) 3 0 400 = ([], none, []) := by
  have hp : (preIndices [] 45).length < 3 := by simp [preIndices]
  exact ⟨hp, c5_insufficient_pre_window [] [] 45 (1/1000) (1/1000) 3 0 400 hp⟩

/-! ### Claim C6 -/

/-- C6 counterexample.  A window whose log-values are all equal but whose
times are also all equal has `s_tt = 0`; `_linear_regression` then
returns `(None, None, None)` rather than reporting an R-squared of 1.0.
Such a window arises in `detect_log_phase` for a series with
`window_size` duplicate timestamps, which the data model permits. -/
theorem c6_counterexample :
    (∀ u ∈ [(2 : ℚ), 2, 2, 2, 2], u = 2) ∧
    (_linear_regression [1, 1, 1, 1, 1] [2, 2, 2, 2, 2]).2.2 ≠ some 1 := by
  constructor
  · intro u hu
    simp only [List.mem_cons, List.not_mem_nil, or_false] at hu
    rcases hu with h | h | h | h | h <;> exact h
  · have hres : (_linear_regression [1, 1, 1, 1, 1] [2, 2, 2, 2, 2]).2.2 = none := by
      norm_num [_linear_regression, sttOf, List.zip_cons_cons]
    rw [hres]
    exact fun hc => Option.noConfusion hc

/-- C6 (amended).  A regression window whose log-values are all equal
reports an R-squared of exactly 1 provided its `s_tt` is non-zero (its
times are not all equal); the degenerate `s_tt = 0` case is guarded and
returns no result instead of faulting, as is the division by the total
variance. -/
theorem c6_flat_window_r2 (T U : List ℚ) (c : ℚ) (hn : 2 ≤ T.length)
    (hlen : U.length = T.length) (hU : ∀ u ∈ U, u = c) (hstt : sttOf T U ≠ 0) :
    (_linear_regression T U).2.2 = some 1 := by
  unfold _linear_regression
  rw [if_neg (by omega : ¬ T.length < 2)]
  dsimp only
  rw [if_neg hstt]
  have hnz : ((T.length : ℚ)) ≠ 0 := by
    have : (0 : ℚ) < T.length := by exact_mod_cast Nat.lt_of_lt_of_le Nat.zero_lt_two hn
    exact ne_of_gt this
  have hmean : U.sum / (T.length : ℚ) = c := by
    have hsum : U.sum = (U.length : ℚ) * c := by
      rw [List.sum_eq_card_nsmul U c hU, nsmul_eq_mul]
    rw [hsum, hlen, mul_comm, mul_div_assoc, div_self hnz, mul_one]
  have hsstot : (U.map (fun u => (u - U.sum / (T.length : ℚ)) ^ 2)).sum = 0 := by
    apply List.sum_eq_zero
    intro x hx
    rw [List.mem_map] at hx
    obtain ⟨u, hu, rfl⟩ := hx
    rw [hU u hu, hmean, sub_self]
    ring
  rw [if_pos hsstot]

/-- Witness for `c6_flat_window_r2` on a flat two-point window with
distinct times. -/
theorem c6_flat_window_r2_witness :
    sttOf [0, 1] [2, 2] ≠ 0 ∧ (_linear_regression [0, 1] [2, 2]).2.2 = some 1 := by
  have hs : sttOf [0, 1] [2, 2] ≠ 0 := by
    norm_num [sttOf, List.zip_cons_cons]
  refine ⟨hs, c6_flat_window_r2 [0, 1] [2, 2] 2 (by norm_num) rfl ?_ hs⟩
  intro u hu
  simp only [List.mem_cons, List.not_mem_nil, or_false] at hu
  rcases hu with h | h <;> exact h

/-! ### Claim C8 -/

/-- C8 counterexample.  With the invalid configuration `tol = -1` (a
negative tolerance) the baseline engine performs no validation and
returns an ordinary result, `([], some 0, [])`, for `t = [0,1,2]`,
`y = [0,0,0]`: it neither fails fast nor reports a configuration error,
refuting the claim. -/
theorem c8_counterexample :
    find_baseline_points [0, 1, 2] [0, 0, 0] 45 (1/1000) (-1) 3 0 400
      = ([], some 0, []) := by
  norm_num [find_baseline_points, preIndices, binsOf, baselineLevelOf,
    candidateIndicesOf, runsOf, validRunsOf, baselineIndicesOf, preExcludedOf,
    monoWindowOf, monoAddedOf, monoKeepPositions, dpTable, dpTab, dpScan,
    bestEnd, bestEndGo, chase, addToBins, pyMaxBySnd, pyMaxByLen, pyMedian,
    pyMinNat, pyMinQ, pyMaxQ, pyTrunc, insSort, insSorted, splitRuns,
    List.range_succ, List.filter, abs_le, lt_abs]

/-- C8 (amended).  The engines perform no configuration validation:
invalid option values flow into the computation unchanged.  In
particular, any negative tolerance silently yields an empty candidate
set, hence empty `baseline_indices` and empty `excluded_indices`, with
no error of any kind. -/
theorem c8_no_validation (t y : List ℚ) (tp bw : ℚ) (tol : ℚ) (mc : ℕ)
    (me mt : ℚ) (h : tol < 0) :
    (find_baseline_points t y tp bw tol mc me mt).1 = [] ∧
    (find_baseline_points t y tp bw tol mc me mt).2.2 = [] := by
  have hcand : candidateIndicesOf t y tp bw tol = [] := by
    unfold candidateIndicesOf
    apply List.filter_eq_nil_iff.2
    intro i _
    simp only [decide_eq_true_eq]
    intro hle
    exact absurd (le_trans (abs_nonneg _) hle) (not_le.2 h)
  unfold find_baseline_points
  split_ifs with h1 h2 h3 h4
  · exact ⟨rfl, rfl⟩
  · exact ⟨rfl, rfl⟩
  · exact ⟨rfl, rfl⟩
  · exact absurd (by rw [hcand]; rfl :
      (candidateIndicesOf t y tp bw tol).isEmpty = true) (by simpa using h3)
  · exact absurd (by rw [hcand]; rfl :
      (candidateIndicesOf t y tp bw tol).isEmpty = true) (by simpa using h3)

/-- Witness for `c8_no_validation` at a concrete invalid tolerance. -/
theorem c8_no_validation_witness :
    (-1 : ℚ) < 0 ∧
    (find_baseline_points [0, 1, 2] [0, 0, 0] 45 (1/1000) (-1) 3 0 400).1 = [] ∧
    (find_baseline_points [0, 1, 2] [0, 0, 0] 45 (1/1000) (-1) 3 0 400).2.2 = [] :=
  ⟨by norm_num,
    c8_no_validation [0, 1, 2] [0, 0, 0] 45 (1/1000) (-1) 3 0 400 (by norm_num)⟩

/-! ### Claim C3 -/

/-- Spec-side description of the winning histogram bin: it occurs in the
grouping, every bin encountered before it has strictly fewer members,
and no bin at all has more members.  This pins the tie-break to the
first bin encountered during grouping. -/
def FirstMaxBin (bins : List (ℤ × List ℕ)) (b : ℤ × List ℕ) : Prop :=
  (∃ l1 l2, bins = l1 ++ b :: l2 ∧ ∀ c ∈ l1, c.2.length < b.2.length) ∧
  ∀ c ∈ bins, c.2.length ≤ b.2.length

/-- The fold underlying `pyMaxBySnd` selects the first entry with
maximal member count. -/
lemma foldl_firstMax :
    ∀ (xs : List (ℤ × List ℕ)) (x : ℤ × List ℕ),
      FirstMaxBin (x :: xs)
        (xs.foldl (fun b kv => if b.2.length < kv.2.length then kv else b) x) := by
  intro xs
  induction xs with
  | nil =>
    intro x
    refine ⟨⟨[], [], rfl, by simp⟩, ?_⟩
    intro c hc
    rw [List.mem_singleton] at hc
    rw [hc]
    simp
  | cons kv rest ih =>
    intro x
    simp only [List.foldl_cons]
    by_cases hx : x.2.length < kv.2.length
    · rw [if_pos hx]
      obtain ⟨⟨l1, l2, hsplit, hlt⟩, hmax⟩ := ih kv
      have hkv_le : kv.2.length
          ≤ (rest.foldl (fun b kv => if b.2.length < kv.2.length then kv else b) kv).2.length :=
        hmax kv (List.mem_cons_self _ _)
      refine ⟨⟨x :: l1, l2, ?_, ?_⟩, ?_⟩
      · rw [List.cons_append, ← hsplit]
      · intro c hc
        rcases List.mem_cons.1 hc with hcx | hcl
        · rw [hcx]; exact lt_of_lt_of_le hx hkv_le
        · exact hlt c hcl
      · intro c hc
        rcases List.mem_cons.1 hc with hcx | hcl
        · rw [hcx]; exact le_of_lt (lt_of_lt_of_le hx hkv_le)
        · exact hmax c hcl
    · rw [if_neg hx]
      obtain ⟨⟨l1, l2, hsplit, hlt⟩, hmax⟩ := ih x
      have hkv_le : kv.2.length ≤ x.2.length := le_of_not_lt hx
      have hx_le : x.2.length
          ≤ (rest.foldl (fun b kv => if b.2.length < kv.2.length then kv else b) x).2.length :=
        hmax x (List.mem_cons_self _ _)
      cases l1 with
      | nil =>
        have hx_eq : x = rest.foldl (fun b kv => if b.2.length < kv.2.length then kv else b) x := by
          have := hsplit
          rw [List.nil_append] at this
          exact (List.cons.injEq _ _ _ _ ▸ this).1
        refine ⟨⟨[], kv :: l2, ?_, by simp⟩, ?_⟩
        · rw [List.nil_append] at hsplit ⊢
          rw [← hx_eq] at hsplit ⊢
          rw [List.cons.injEq] at hsplit
          rw [hsplit.2]
        · intro c hc
          rcases List.mem_cons.1 hc with hcx | hcl
          · rw [hcx, ← hx_eq]
          · rcases List.mem_cons.1 hcl with hck | hcr
            · rw [hck, ← hx_eq]; exact hkv_le
            · exact hmax c (List.mem_cons_of_mem _ hcr)
      | cons z l1t =>
        have hz : z = x ∧ rest = l1t ++
            (rest.foldl (fun b kv => if b.2.length < kv.2.length then kv else b) x) :: l2 := by
          rw [List.cons_append, List.cons.injEq] at hsplit
          exact ⟨hsplit.1.symm, hsplit.2⟩
        have hxlt : x.2.length
            < (rest.foldl (fun b kv => if b.2.length < kv.2.length then kv else b) x).2.length := by
          have := hlt z (List.mem_cons_self _ _)
          rw [hz.1] at this
          exact this
        refine ⟨⟨x :: kv :: l1t, l2, ?_, ?_⟩, ?_⟩
        · rw [List.cons_append, List.cons_append]
          exact congrArg (fun s => x :: kv :: s) hz.2
        · intro c hc
          rcases List.mem_cons.1 hc with hcx | hcl
          · rw [hcx]; exact hxlt
          · rcases List.mem_cons.1 hcl with hck | hcr
            · rw [hck]; exact lt_of_le_of_lt hkv_le hxlt
            · exact hlt c (hz.1 ▸ List.mem_cons_of_mem _ hcr)
        · intro c hc
          rcases List.mem_cons.1 hc with hcx | hcl
          · rw [hcx]; exact hx_le
          · rcases List.mem_cons.1 hcl with hck | hcr
            · rw [hck]; exact le_trans hkv_le hx_le
            · exact hmax c (List.mem_cons_of_mem _ hcr)

/-- `pyMaxBySnd` of a non-empty grouping is its first bin of maximal
member count. -/
lemma pyMaxBySnd_firstMax (bins : List (ℤ × List ℕ)) (h : bins ≠ []) :
    FirstMaxBin bins (pyMaxBySnd bins) := by
  cases bins with
  | nil => exact absurd rfl h
  | cons x xs => exact foldl_firstMax xs x

/-- `addToBins` never returns the empty grouping. -/
lemma addToBins_ne_nil (key : ℤ) (idx : ℕ) (b : List (ℤ × List ℕ)) :
    addToBins key idx b ≠ [] := by
  cases b with
  | nil => simp [addToBins]
  | cons hd tl =>
    obtain ⟨k, l⟩ := hd
    by_cases hk : k = key <;> simp [addToBins, hk]

/-- Folding `addToBins` preserves non-emptiness of the grouping. -/
lemma foldl_addToBins_ne_nil (f : ℕ → ℤ) :
    ∀ (l : List ℕ) (b : List (ℤ × List ℕ)), b ≠ [] →
      l.foldl (fun acc i => addToBins (f i) i acc) b ≠ [] := by
  intro l
  induction l with
  | nil => intro b hb; exact hb
  | cons x xs ih => intro b _; exact ih _ (addToBins_ne_nil _ _ _)

/-- A non-empty pre-window produces a non-empty histogram. -/
lemma binsOf_ne_nil (t y : List ℚ) (tp bw : ℚ) (h : preIndices t tp ≠ []) :
    binsOf t y tp bw ≠ [] := by
  unfold binsOf
  dsimp only
  cases hp : preIndices t tp with
  | nil => exact absurd hp h
  | cons x xs =>
    rw [List.foldl_cons]
    exact foldl_addToBins_ne_nil _ xs _ (addToBins_ne_nil _ _ _)

/-- C3.  Whenever the pre-window has at least `min_consecutive` points
(with a positive `min_consecutive`, so the pre-window is non-empty and
the histogram exists), the returned baseline level is the median of the
values of the winning histogram bin, where the winning bin holds the
most members and a tie resolves to the first bin encountered during the
insertion-ordered grouping — a deterministic choice. -/
theorem c3_baseline_level_median (t y : List ℚ) (tp bw tol : ℚ) (mc : ℕ)
    (me mt : ℚ) (h0 : 0 < mc) (h1 : mc ≤ (preIndices t tp).length) :
    ∃ b, FirstMaxBin (binsOf t y tp bw) b ∧
      (find_baseline_points t y tp bw tol mc me mt).2.1
        = some (pyMedian (b.2.map (fun i => y.getD i 0))) := by
  have hpre : preIndices t tp ≠ [] := by
    intro hc
    rw [hc] at h1
    simp at h1
    omega
  have hbins := binsOf_ne_nil t y tp bw hpre
  refine ⟨pyMaxBySnd (binsOf t y tp bw), pyMaxBySnd_firstMax _ hbins, ?_⟩
  unfold find_baseline_points
  split_ifs with ha hb hc hd
  · omega
  · exact absurd (List.isEmpty_iff.1 hb) hbins
  · rfl
  · rfl
  · rfl

/-- Witness for `c3_baseline_level_median` at a concrete input. -/
theorem c3_baseline_level_median_witness :
    0 < 3 ∧ 3 ≤ (preIndices [0, 10, 20, 30] 45).length ∧
    ∃ b, FirstMaxBin (binsOf [0, 10, 20, 30] [1/20, 1/20, 1/20, 1] 45 (1/1000)) b ∧
      (find_baseline_points [0, 10, 20, 30] [1/20, 1/20, 1/20, 1]
          45 (1/1000) (1/100) 3 0 400).2.1
        = some (pyMedian (b.2.map (fun i => [(1 : ℚ)/20, 1/20, 1/20, 1].getD i 0))) := by
  have hlen : 3 ≤ (preIndices [0, 10, 20, 30] 45).length := by
    norm_num [preIndices, List.range_succ, List.filter]
  exact ⟨by norm_num, hlen,
    c3_baseline_level_median [0, 10, 20, 30] [1/20, 1/20, 1/20, 1]
      45 (1/1000) (1/100) 3 0 400 (by norm_num) hlen⟩

/-! ### Claim C7 -/

/-- Spec-side qualification of the window starting at position `k` of
the valid-index list, stated as in the claim: the window's maximum value
lies below `frac_k_max * kEstimate`, all its values are positive, its
regression slope is positive, and its R-squared is at least `r2_min`. -/
def QualifiesB (ln : ℚ → ℚ) (t y : List ℚ) (window_size : ℕ)
    (r2_min od_min frac_k_max : ℚ) (k : ℕ) : Bool :=
  let idxs := ((validIndicesOf y od_min).drop k).take window_size
  let Y := idxs.map (fun i => y.getD i 0)
  decide (pyMaxQ Y < frac_k_max * kEstOf y od_min) &&
    decide (∀ v ∈ Y, 0 < v) &&
    match _linear_regression (idxs.map (fun i => t.getD i 0)) (Y.map ln) with
    | (some s, _, some r) => decide (0 < s) && decide (r2_min ≤ r)
    | _ => false

/-- The regression slope of the window starting at position `k` (0 when
the regression is degenerate, which cannot happen for a qualifying
window). -/
def slopeAt (ln : ℚ → ℚ) (t y : List ℚ) (window_size : ℕ) (od_min : ℚ)
    (k : ℕ) : ℚ :=
  let idxs := ((validIndicesOf y od_min).drop k).take window_size
  match _linear_regression (idxs.map (fun i => t.getD i 0))
      ((idxs.map (fun i => y.getD i 0)).map ln) with
  | (some s, _, _) => s
  | _ => 0

/-- The window tuple retained for a qualifying start position. -/
def mkWindow (ln : ℚ → ℚ) (t y : List ℚ) (window_size : ℕ) (od_min : ℚ)
    (k : ℕ) : ℕ × ℕ × ℚ × ℚ :=
  let idxs := ((validIndicesOf y od_min).drop k).take window_size
  match _linear_regression (idxs.map (fun i => t.getD i 0))
      ((idxs.map (fun i => y.getD i 0)).map ln) with
  | (some s, _, some r) => (idxs.headD 0, idxs.getLastD 0, s, r)
  | _ => (0, 0, 0, 0)

/-- A `filterMap` whose function is an if-guarded `some` is a filtered
map. -/
lemma filterMap_eq_filter_map {α β : Type} (f : α → Option β) (p : α → Bool)
    (g : α → β) (h : ∀ a, f a = if p a = true then some (g a) else none) :
    ∀ l : List α, l.filterMap f = (l.filter p).map g := by
  intro l
  induction l with
  | nil => rfl
  | cons a as ih =>
    rw [List.filterMap_cons, List.filter_cons, h a]
    by_cases hp : p a = true
    · rw [if_pos hp, if_pos hp, List.map_cons, ih]
    · rw [if_neg hp, if_neg hp, ih]

/-- The source's sequence of `continue` guards for one window agrees
pointwise with the spec-side qualification predicate: a window
contributes exactly when it qualifies, and then contributes
`mkWindow`.  The plateau guard `max(Y)/K >= frac_k_max` matches the
claim's `max(Y) < frac_k_max * K` because `K` is positive here. -/
lemma goodWindowFn_eq (ln : ℚ → ℚ) (t y : List ℚ) (ws : ℕ) (r2m odm fkm : ℚ)
    (hK : 0 < kEstOf y odm) (k : ℕ) :
    goodWindowFn ln t y ws r2m odm fkm k
      = if QualifiesB ln t y ws r2m odm fkm k = true
          then some (mkWindow ln t y ws odm k) else none := by
  unfold goodWindowFn QualifiesB mkWindow
  dsimp only
  by_cases h1 : fkm ≤ pyMaxQ (List.map (fun i => y.getD i 0)
      (List.take ws (List.drop k (validIndicesOf y odm)))) / kEstOf y odm
  · rw [if_pos h1]
    have hnp : ¬ pyMaxQ (List.map (fun i => y.getD i 0)
        (List.take ws (List.drop k (validIndicesOf y odm)))) < fkm * kEstOf y odm :=
      fun hc => absurd ((div_lt_iff₀ hK).2 hc) (not_lt.2 h1)
    split_ifs with hq
    · simp only [Bool.and_eq_true] at hq
      exact absurd (of_decide_eq_true hq.1.1) hnp
    · rfl
  · rw [if_neg h1]
    have hplat : pyMaxQ (List.map (fun i => y.getD i 0)
        (List.take ws (List.drop k (validIndicesOf y odm)))) < fkm * kEstOf y odm :=
      (div_lt_iff₀ hK).1 (not_le.1 h1)
    by_cases h2 : (List.map (fun i => y.getD i 0)
        (List.take ws (List.drop k (validIndicesOf y odm)))).any
          (fun v => decide (v ≤ 0)) = true
    · rw [if_pos h2]
      have hnpos : ¬ ∀ v ∈ List.map (fun i => y.getD i 0)
          (List.take ws (List.drop k (validIndicesOf y odm))), 0 < v := by
        rw [List.any_eq_true] at h2
        obtain ⟨v, hv, hv0⟩ := h2
        rw [decide_eq_true_eq] at hv0
        exact fun hall => absurd (hall v hv) (not_lt.2 hv0)
      split_ifs with hq
      · simp only [Bool.and_eq_true] at hq
        exact absurd (of_decide_eq_true hq.1.2) hnpos
      · rfl
    · rw [if_neg h2]
      have hpos : ∀ v ∈ List.map (fun i => y.getD i 0)
          (List.take ws (List.drop k (validIndicesOf y odm))), 0 < v := by
        intro v hv
        by_contra hc
        exact h2 (List.any_eq_true.2 ⟨v, hv, decide_eq_true (not_lt.1 hc)⟩)
      rcases hreg : _linear_regression
          (List.map (fun i => t.getD i 0)
            (List.take ws (List.drop k (validIndicesOf y odm))))
          ((List.map (fun i => y.getD i 0)
            (List.take ws (List.drop k (validIndicesOf y odm)))).map ln)
        with ⟨os, oi, orr⟩
      cases os with
      | none =>
        cases orr with
        | none =>
          dsimp only
          split_ifs with hq
          · simp only [Bool.and_eq_true] at hq
            exact absurd hq.2 Bool.false_ne_true
          · rfl
        | some r =>
          dsimp only
          split_ifs with hq
          · simp only [Bool.and_eq_true] at hq
            exact absurd hq.2 Bool.false_ne_true
          · rfl
      | some s =>
        cases orr with
        | none =>
          dsimp only
          split_ifs with hq
          · simp only [Bool.and_eq_true] at hq
            exact absurd hq.2 Bool.false_ne_true
          · rfl
        | some r =>
          dsimp only
          by_cases hs : s ≤ 0
          · rw [if_pos hs]
            split_ifs with hq
            · simp only [Bool.and_eq_true] at hq
              exact absurd (of_decide_eq_true hq.2.1) (not_lt.2 hs)
            · rfl
          · rw [if_neg hs]
            by_cases hr : r < r2m
            · rw [if_pos hr]
              split_ifs with hq
              · simp only [Bool.and_eq_true] at hq
                exact absurd (of_decide_eq_true hq.2.2) (not_le.2 hr)
              · rfl
            · rw [if_neg hr]
              split_ifs with hq
              · rfl
              · refine absurd ?_ hq
                simp only [Bool.and_eq_true]
                exact ⟨⟨decide_eq_true hplat, decide_eq_true hpos⟩,
                  decide_eq_true (not_le.1 hs), decide_eq_true (not_lt.1 hr)⟩

/-- The retained windows are exactly the qualifying window starts, in
order, mapped to their window tuples. -/
lemma goodWindowsOf_eq (ln : ℚ → ℚ) (t y : List ℚ) (ws : ℕ) (r2m odm fkm : ℚ)
    (hK : 0 < kEstOf y odm) :
    goodWindowsOf ln t y ws r2m odm fkm
      = ((List.range ((validIndicesOf y odm).length - ws + 1)).filter
          (QualifiesB ln t y ws r2m odm fkm)).map (mkWindow ln t y ws odm) :=
  filterMap_eq_filter_map _ _ _ (goodWindowFn_eq ln t y ws r2m odm fkm hK) _

/-- The slope component of a qualifying window's tuple is the window's
regression slope. -/
lemma mkWindow_slope (ln : ℚ → ℚ) (t y : List ℚ) (ws : ℕ) (r2m odm fkm : ℚ)
    (k : ℕ) (hq : QualifiesB ln t y ws r2m odm fkm k = true) :
    (mkWindow ln t y ws odm k).2.2.1 = slopeAt ln t y ws odm k := by
  unfold QualifiesB at hq
  unfold mkWindow slopeAt
  dsimp only at hq ⊢
  rcases hreg : _linear_regression
      (List.map (fun i => t.getD i 0)
        (List.take ws (List.drop k (validIndicesOf y odm))))
      ((List.map (fun i => y.getD i 0)
        (List.take ws (List.drop k (validIndicesOf y odm)))).map ln)
    with ⟨os, oi, orr⟩
  rw [hreg] at hq
  cases os with
  | none =>
    cases orr with
    | none => simp at hq
    | some r => simp at hq
  | some s =>
    cases orr with
    | none => simp at hq
    | some r => rfl

/-- C7.  Under a well-formed series (equal time and value lengths),
enough valid points and a positive plateau estimate: if some window
qualifies, the returned `mu_max` is the maximum regression slope over
exactly the qualifying windows; if no window qualifies, the result has
empty `log_indices`, unknown `mu_max` and `mu_mean`, but `K_est` still
populated. -/
theorem c7_mu_max (ln : ℚ → ℚ) (t y : List ℚ) (ws : ℕ) (r2m odm fkm m1 m2 : ℚ)
    (hlen : t.length = y.length) (hv : ws + 1 ≤ (validIndicesOf y odm).length)
    (hK : 0 < kEstOf y odm) :
    ((∃ k ∈ List.range ((validIndicesOf y odm).length - ws + 1),
        QualifiesB ln t y ws r2m odm fkm k = true) →
      (detect_log_phase ln t y ws r2m odm fkm m1 m2).2.1
        = some (pyMaxQ (((List.range ((validIndicesOf y odm).length - ws + 1)).filter
            (QualifiesB ln t y ws r2m odm fkm)).map (slopeAt ln t y ws odm)))) ∧
    ((∀ k ∈ List.range ((validIndicesOf y odm).length - ws + 1),
        QualifiesB ln t y ws r2m odm fkm k = false) →
      detect_log_phase ln t y ws r2m odm fkm m1 m2
        = ([], none, none, some (kEstOf y odm))) := by
  have hvalid_le : (validIndicesOf y odm).length ≤ y.length := by
    unfold validIndicesOf
    exact le_trans (List.length_filter_le _ _) (le_of_eq (List.length_range _))
  have ht0 : ¬ t.length = 0 := by omega
  have hmu : muMaxOf ln t y ws r2m odm fkm
      = pyMaxQ (((List.range ((validIndicesOf y odm).length - ws + 1)).filter
          (QualifiesB ln t y ws r2m odm fkm)).map (slopeAt ln t y ws odm)) := by
    unfold muMaxOf
    rw [goodWindowsOf_eq ln t y ws r2m odm fkm hK, List.map_map]
    congr 1
    apply List.map_congr_left
    intro k hk
    exact mkWindow_slope ln t y ws r2m odm fkm k (List.mem_filter.1 hk).2
  constructor
  · intro hex
    have hgood_ne : ¬ (goodWindowsOf ln t y ws r2m odm fkm).isEmpty = true := by
      rw [goodWindowsOf_eq ln t y ws r2m odm fkm hK]
      obtain ⟨k, hk, hq⟩ := hex
      intro hc
      rw [List.isEmpty_iff, List.map_eq_nil_iff] at hc
      have hmem : k ∈ (List.range ((validIndicesOf y odm).length - ws + 1)).filter
          (QualifiesB ln t y ws r2m odm fkm) := List.mem_filter.2 ⟨hk, hq⟩
      rw [hc] at hmem
      exact List.not_mem_nil _ hmem
    unfold detect_log_phase
    dsimp only
    split_ifs with h2 h3 h4 h5
    · exact absurd h2 (not_lt.2 hv)
    · exact absurd h3 (not_le.2 hK)
    · exact congrArg some hmu
    · exact congrArg some hmu
    · exact congrArg some hmu
  · intro hall
    have hfilter : (List.range ((validIndicesOf y odm).length - ws + 1)).filter
        (QualifiesB ln t y ws r2m odm fkm) = [] := by
      apply List.filter_eq_nil_iff.2
      intro a ha
      rw [hall a ha]
      exact Bool.false_ne_true
    have hgood : goodWindowsOf ln t y ws r2m odm fkm = [] := by
      rw [goodWindowsOf_eq ln t y ws r2m odm fkm hK, hfilter]
      rfl
    unfold detect_log_phase
    dsimp only
    split_ifs with h2 h3 h4 h5 h6
    · exact absurd h2 (not_lt.2 hv)
    · exact absurd h3 (not_le.2 hK)
    · rfl
    · exact absurd (by rw [hgood]; rfl) h4
    · exact absurd (by rw [hgood]; rfl) h4
    · exact absurd (by rw [hgood]; rfl) h4

/-- Witness for `c7_mu_max` at a concrete exponential-like series. -/
theorem c7_mu_max_witness :
    (∃ k ∈ List.range ((validIndicesOf [1, 2, 4] 1).length - 2 + 1),
      QualifiesB id [0, 1, 2] [1, 2, 4] 2 (1/2) 1 100 k = true) ∧
    (detect_log_phase id [0, 1, 2] [1, 2, 4] 2 (1/2) 1 100 0 100).2.1
      = some (pyMaxQ (((List.range ((validIndicesOf [1, 2, 4] 1).length - 2 + 1)).filter
          (QualifiesB id [0, 1, 2] [1, 2, 4] 2 (1/2) 1 100)).map
            (slopeAt id [0, 1, 2] [1, 2, 4] 2 1))) := by
  have hval : validIndicesOf [1, 2, 4] 1 = [0, 1, 2] := by
    norm_num [validIndicesOf, List.range_succ, List.filter]
  have hq1 : QualifiesB id [0, 1, 2] [1, 2, 4] 2 (1/2) 1 100 1 = true := by
    norm_num [QualifiesB, hval, _linear_regression, sttOf, kEstOf, kTailOf, hval,
      pyMedian, insSort, insSorted, pyMaxQ, List.zip_cons_cons]
  have hex : ∃ k ∈ List.range ((validIndicesOf [1, 2, 4] 1).length - 2 + 1),
      QualifiesB id [0, 1, 2] [1, 2, 4] 2 (1/2) 1 100 k = true := by
    refine ⟨1, ?_, hq1⟩
    rw [hval]
    decide
  refine ⟨hex, ?_⟩
  exact (c7_mu_max id [0, 1, 2] [1, 2, 4] 2 (1/2) 1 100 0 100 rfl
    (by rw [hval]; norm_num) (by norm_num [kEstOf, kTailOf, hval, pyMedian, insSort,
      insSorted])).1 hex

/-! ### Correctness of the longest-non-decreasing-subsequence DP
(claims C2 and C9) -/

/-- The DP table entry of position `j`: its value, `dp_len` and
`prev_idx`. -/
def dpEntry (eps : ℚ) (vals : List ℚ) (j : ℕ) : ℚ × ℕ × Option ℕ :=
  (vals.getD j 0, dpScan eps (vals.getD j 0) 0 (1, none) (dpTab eps vals j))

/-- `dp_len[j]`. -/
def dpLenAt (eps : ℚ) (vals : List ℚ) (j : ℕ) : ℕ := (dpEntry eps vals j).2.1

/-- `prev_idx[j]` (`none` for the sentinel `-1`). -/
def dpPrevAt (eps : ℚ) (vals : List ℚ) (j : ℕ) : Option ℕ := (dpEntry eps vals j).2.2

lemma dpTab_succ (eps : ℚ) (vals : List ℚ) (j : ℕ) :
    dpTab eps vals (j + 1) = dpTab eps vals j ++ [dpEntry eps vals j] := rfl

lemma dpTab_length (eps : ℚ) (vals : List ℚ) :
    ∀ j, (dpTab eps vals j).length = j := by
  intro j
  induction j with
  | zero => rfl
  | succ j ih => rw [dpTab_succ, List.length_append, ih]; rfl

lemma dpTab_getElem (eps : ℚ) (vals : List ℚ) :
    ∀ {i j : ℕ}, i < j → (dpTab eps vals j)[i]? = some (dpEntry eps vals i) := by
  intro i j
  induction j with
  | zero => intro h; exact absurd h (Nat.not_lt_zero _)
  | succ j ih =>
    intro h
    rw [dpTab_succ]
    rcases Nat.lt_or_ge i j with hij | hij
    · rw [List.getElem?_append, if_pos (by rw [dpTab_length]; exact hij)]
      exact ih hij
    · have hji : i = j := by omega
      subst hji
      rw [List.getElem?_append, if_neg (by rw [dpTab_length]; omega), dpTab_length]
      simp

lemma dpTab_get (eps : ℚ) (vals : List ℚ) {i j : ℕ} (hij : i < j)
    (hi : i < (dpTab eps vals j).length) :
    (dpTab eps vals j).get ⟨i, hi⟩ = dpEntry eps vals i := by
  have h1 := dpTab_getElem eps vals hij
  rw [List.getElem?_eq_getElem hi] at h1
  rw [List.get_eq_getElem]
  exact Option.some.inj h1

/-- The running best of the scan never decreases. -/
lemma dpScan_best_le (eps vj : ℚ) :
    ∀ (l : List (ℚ × ℕ × Option ℕ)) (pos : ℕ) (best : ℕ × Option ℕ),
      best.1 ≤ (dpScan eps vj pos best l).1 := by
  intro l
  induction l with
  | nil => intro pos best; exact le_refl _
  | cons e rest ih =>
    intro pos best
    rw [dpScan]
    split_ifs with h
    · exact le_trans (le_of_lt h.2) (ih (pos + 1) (e.2.1 + 1, some pos))
    · exact ih (pos + 1) best

/-- The scan result dominates every qualifying entry of the scanned
prefix. -/
lemma dpScan_ge_entry (eps vj : ℚ) :
    ∀ (l : List (ℚ × ℕ × Option ℕ)) (pos : ℕ) (best : ℕ × Option ℕ)
      (k : ℕ) (hk : k < l.length),
      (l.get ⟨k, hk⟩).1 ≤ vj + eps →
      (l.get ⟨k, hk⟩).2.1 + 1 ≤ (dpScan eps vj pos best l).1 := by
  intro l
  induction l with
  | nil => intro pos best k hk; exact absurd hk (Nat.not_lt_zero _)
  | cons e rest ih =>
    intro pos best k hk hq
    cases k with
    | zero =>
      simp only [List.get] at hq ⊢
      rw [dpScan]
      by_cases h : e.1 ≤ vj + eps ∧ best.1 < e.2.1 + 1
      · rw [if_pos h]
        exact dpScan_best_le eps vj rest (pos + 1) (e.2.1 + 1, some pos)
      · rw [if_neg h]
        have hb : e.2.1 + 1 ≤ best.1 := by
          rcases Nat.lt_or_ge best.1 (e.2.1 + 1) with hc | hc
          · exact absurd ⟨hq, hc⟩ h
          · exact hc
        exact le_trans hb (dpScan_best_le eps vj rest (pos + 1) best)
    | succ k =>
      simp only [List.get] at hq ⊢
      rw [dpScan]
      split_ifs with h
      · exact ih (pos + 1) _ k _ hq
      · exact ih (pos + 1) best k _ hq

/-- Provenance of the scan result: it is either the initial best or it
records a qualifying entry together with its position. -/
lemma dpScan_spec (eps vj : ℚ) :
    ∀ (l : List (ℚ × ℕ × Option ℕ)) (pos : ℕ) (best : ℕ × Option ℕ),
      dpScan eps vj pos best l = best ∨
      ∃ k, ∃ hk : k < l.length, (l.get ⟨k, hk⟩).1 ≤ vj + eps ∧
        (dpScan eps vj pos best l).1 = (l.get ⟨k, hk⟩).2.1 + 1 ∧
        (dpScan eps vj pos best l).2 = some (pos + k) := by
  intro l
  induction l with
  | nil => intro pos best; exact Or.inl rfl
  | cons e rest ih =>
    intro pos best
    rw [dpScan]
    split_ifs with h
    · rcases ih (pos + 1) (e.2.1 + 1, some pos) with hc | ⟨k, hk, hq, hlen, hprev⟩
      · refine Or.inr ⟨0, Nat.succ_pos _, h.1, ?_, ?_⟩
        · rw [hc]
          rfl
        · rw [hc, Nat.add_zero]
          rfl
      · refine Or.inr ⟨k + 1, Nat.succ_lt_succ hk, hq, hlen, ?_⟩
        rw [hprev]
        congr 1
        omega
    · rcases ih (pos + 1) best with hc | ⟨k, hk, hq, hlen, hprev⟩
      · exact Or.inl hc
      · refine Or.inr ⟨k + 1, Nat.succ_lt_succ hk, hq, hlen, ?_⟩
        rw [hprev]
        congr 1
        omega

lemma dpLenAt_pos (eps : ℚ) (vals : List ℚ) (j : ℕ) : 1 ≤ dpLenAt eps vals j :=
  dpScan_best_le eps (vals.getD j 0) (dpTab eps vals j) 0 (1, none)

lemma dpPrevAt_none (eps : ℚ) (vals : List ℚ) {j : ℕ}
    (h : dpPrevAt eps vals j = none) : dpLenAt eps vals j = 1 := by
  rcases dpScan_spec eps (vals.getD j 0) (dpTab eps vals j) 0 (1, none)
    with hc | ⟨k, hk, _, _, hprev⟩
  · unfold dpLenAt dpEntry
    rw [hc]
  · unfold dpPrevAt dpEntry at h
    rw [h] at hprev
    exact absurd hprev.symm (Option.some_ne_none _)

lemma dpPrevAt_some (eps : ℚ) (vals : List ℚ) {j p : ℕ}
    (h : dpPrevAt eps vals j = some p) :
    p < j ∧ vals.getD p 0 ≤ vals.getD j 0 + eps ∧
      dpLenAt eps vals j = dpLenAt eps vals p + 1 := by
  rcases dpScan_spec eps (vals.getD j 0) (dpTab eps vals j) 0 (1, none)
    with hc | ⟨k, hk, hq, hlen, hprev⟩
  · unfold dpPrevAt dpEntry at h
    rw [hc] at h
    exact absurd h (Option.noConfusion)
  · unfold dpPrevAt dpEntry at h
    rw [h] at hprev
    have hkp : p = k := by
      have := Option.some.inj hprev
      omega
    subst hkp
    have hpj : p < j := by
      have := hk
      rw [dpTab_length] at this
      exact this
    have hget := dpTab_get eps vals hpj hk
    constructor
    · exact hpj
    constructor
    · rw [hget] at hq
      exact hq
    · unfold dpLenAt dpEntry
      rw [hlen, hget]
      rfl

lemma dpLenAt_mono_link (eps : ℚ) (vals : List ℚ) {i j : ℕ} (hij : i < j)
    (hle : vals.getD i 0 ≤ vals.getD j 0 + eps) :
    dpLenAt eps vals i + 1 ≤ dpLenAt eps vals j := by
  have hi : i < (dpTab eps vals j).length := by rw [dpTab_length]; exact hij
  have hget := dpTab_get eps vals hij hi
  have := dpScan_ge_entry eps (vals.getD j 0) (dpTab eps vals j) 0 (1, none) i hi
    (by rw [hget]; exact hle)
  rw [hget] at this
  exact this

lemma dpLenAt_le (eps : ℚ) (vals : List ℚ) :
    ∀ j, dpLenAt eps vals j ≤ j + 1 := by
  intro j
  induction j using Nat.strong_induction_on with
  | _ j ih =>
    cases hp : dpPrevAt eps vals j with
    | none => rw [dpPrevAt_none eps vals hp]; omega
    | some p =>
      obtain ⟨hpj, _, hplen⟩ := dpPrevAt_some eps vals hp
      rw [hplen]
      have := ih p hpj
      omega

/-- A tolerant non-decreasing subsequence of `vals`, given by its list
of positions: the positions are strictly increasing and in range, and
each adjacent pair of selected values is non-decreasing up to a downward
tolerance of `eps` (`value[i] ≤ value[j] + eps`), exactly the relation
used by the DP of the source and by the spec. -/
def TolChain (eps : ℚ) (vals : List ℚ) (ps : List ℕ) : Prop :=
  List.Chain' (· < ·) ps ∧ (∀ p ∈ ps, p < vals.length) ∧
    List.Chain' (fun i j => vals.getD i 0 ≤ vals.getD j 0 + eps) ps

/-- Any tolerant chain ending at position `j` has length at most
`dp_len[j]`. -/
lemma tolChain_le_dpLen (eps : ℚ) (vals : List ℚ) :
    ∀ (ps : List ℕ) (j : ℕ), TolChain eps vals (ps ++ [j]) →
      ps.length + 1 ≤ dpLenAt eps vals j := by
  intro ps
  induction ps using List.reverseRecOn with
  | nil =>
    intro j _
    simpa using dpLenAt_pos eps vals j
  | append_singleton qs i ih =>
    intro j hch
    obtain ⟨hlt, hbd, htol⟩ := hch
    have hlast : ((qs ++ [i]).getLast?) = some i := List.getLast?_concat _
    have hlink_lt : i < j := by
      have h := (List.chain'_append.1 hlt).2.2
      exact h i hlast j rfl
    have hlink_tol : vals.getD i 0 ≤ vals.getD j 0 + eps := by
      have h := (List.chain'_append.1 htol).2.2
      exact h i hlast j rfl
    have hch' : TolChain eps vals (qs ++ [i]) := by
      refine ⟨(List.chain'_append.1 hlt).1, ?_, (List.chain'_append.1 htol).1⟩
      intro p hp
      exact hbd p (List.mem_append_left _ hp)
    have h1 := ih i hch'
    have h2 := dpLenAt_mono_link eps vals hlink_lt hlink_tol
    have h3 : (qs ++ [i]).length = qs.length + 1 := by simp
    omega

/-- Invariant of the `best_end` scan: provided the scanned entries carry
the true `dp_len` values and the running best is sound, the final
position dominates every scanned position and the initial best. -/
lemma bestEndGo_spec (eps : ℚ) (vals : List ℚ) :
    ∀ (l : List (ℚ × ℕ × Option ℕ)) (pos : ℕ) (best : ℕ × ℕ),
      (∀ k (hk : k < l.length), (l.get ⟨k, hk⟩).2.1 = dpLenAt eps vals (pos + k)) →
      best.2 ≤ dpLenAt eps vals best.1 →
      (∀ k, k < l.length →
        dpLenAt eps vals (pos + k) ≤ dpLenAt eps vals (bestEndGo pos best l)) ∧
      best.2 ≤ dpLenAt eps vals (bestEndGo pos best l) ∧
      (bestEndGo pos best l = best.1 ∨
        ∃ k, k < l.length ∧ bestEndGo pos best l = pos + k) := by
  intro l
  induction l with
  | nil =>
    intro pos best _ hbest
    exact ⟨fun k hk => absurd hk (Nat.not_lt_zero _), hbest, Or.inl rfl⟩
  | cons e rest ih =>
    intro pos best hcorr hbest
    have hcorr0 : e.2.1 = dpLenAt eps vals pos := by
      have := hcorr 0 (Nat.succ_pos _)
      simpa using this
    have hcorr' : ∀ k (hk : k < rest.length),
        (rest.get ⟨k, hk⟩).2.1 = dpLenAt eps vals (pos + 1 + k) := by
      intro k hk
      have := hcorr (k + 1) (Nat.succ_lt_succ hk)
      simp only [List.get] at this
      rw [this]
      congr 1
      omega
    rw [bestEndGo]
    split_ifs with h
    · have hbest' : (pos, e.2.1).2 ≤ dpLenAt eps vals (pos, e.2.1).1 :=
        le_of_eq hcorr0
      obtain ⟨ha, hb, hc⟩ := ih (pos + 1) (pos, e.2.1) hcorr' hbest'
      refine ⟨?_, ?_, ?_⟩
      · intro k hk
        cases k with
        | zero => rw [Nat.add_zero]; exact le_trans (le_of_eq hcorr0.symm) hb
        | succ k =>
          have := ha k (Nat.lt_of_succ_lt_succ hk)
          rw [show pos + 1 + k = pos + (k + 1) by omega] at this
          exact this
      · exact le_trans (le_of_lt h) hb
      · rcases hc with hc | ⟨k, hk, hc⟩
        · exact Or.inr ⟨0, Nat.succ_pos _, by rw [hc, Nat.add_zero]⟩
        · exact Or.inr ⟨k + 1, Nat.succ_lt_succ hk, by rw [hc]; omega⟩
    · obtain ⟨ha, hb, hc⟩ := ih (pos + 1) best hcorr' hbest
      refine ⟨?_, hb, ?_⟩
      · intro k hk
        cases k with
        | zero =>
          rw [Nat.add_zero, ← hcorr0]
          exact le_trans (le_of_not_lt h) hb
        | succ k =>
          have := ha k (Nat.lt_of_succ_lt_succ hk)
          rw [show pos + 1 + k = pos + (k + 1) by omega] at this
          exact this
      · rcases hc with hc | ⟨k, hk, hc⟩
        · exact Or.inl hc
        · exact Or.inr ⟨k + 1, Nat.succ_lt_succ hk, by rw [hc]; omega⟩

/-- `best_end` carries the maximal `dp_len` and is in range. -/
lemma bestEnd_spec (eps : ℚ) (vals : List ℚ) (hne : vals ≠ []) :
    (∀ j, j < vals.length →
      dpLenAt eps vals j ≤ dpLenAt eps vals (bestEnd (dpTable eps vals))) ∧
    bestEnd (dpTable eps vals) < vals.length := by
  have hlen : (dpTable eps vals).length = vals.length := dpTab_length eps vals _
  have hcorr : ∀ k (hk : k < (dpTable eps vals).length),
      ((dpTable eps vals).get ⟨k, hk⟩).2.1 = dpLenAt eps vals (0 + k) := by
    intro k hk
    have hkv : k < vals.length := by rw [← hlen]; exact hk
    rw [Nat.zero_add]
    show ((dpTab eps vals vals.length).get ⟨k, hk⟩).2.1 = dpLenAt eps vals k
    rw [dpTab_get eps vals hkv]
    rfl
  obtain ⟨ha, _, hc⟩ := bestEndGo_spec eps vals (dpTable eps vals) 0 (0, 0) hcorr
    (Nat.zero_le _)
  constructor
  · intro j hj
    have := ha j (by rw [hlen]; exact hj)
    rw [Nat.zero_add] at this
    exact this
  · rcases hc with hc | ⟨k, hk, hc⟩
    · unfold bestEnd
      rw [hc]
      exact List.length_pos.2 hne
    · unfold bestEnd
      rw [hc, Nat.zero_add]
      rw [← hlen]
      exact hk

lemma dpTable_getD (eps : ℚ) (vals : List ℚ) {j : ℕ} (hj : j < vals.length) :
    (dpTable eps vals).getD j (0, 1, none) = dpEntry eps vals j := by
  unfold dpTable
  rw [List.getD_eq_getElem?_getD, dpTab_getElem eps vals hj]
  rfl

/-- The pointer chase from a position produces a tolerant chain (read in
reverse) of length `dp_len` at that position, headed by the position. -/
lemma chase_spec (eps : ℚ) (vals : List ℚ) :
    ∀ j, j < vals.length → ∀ fuel, j < fuel →
      TolChain eps vals (chase (dpTable eps vals) fuel j).reverse ∧
      (chase (dpTable eps vals) fuel j).length = dpLenAt eps vals j ∧
      (chase (dpTable eps vals) fuel j).head? = some j ∧
      ∀ q ∈ chase (dpTable eps vals) fuel j, q ≤ j := by
  intro j
  induction j using Nat.strong_induction_on with
  | _ j ih =>
    intro hj fuel hfuel
    cases fuel with
    | zero => exact absurd hfuel (Nat.not_lt_zero _)
    | succ f =>
      have hstep : chase (dpTable eps vals) (f + 1) j
          = j :: (match dpPrevAt eps vals j with
              | none => []
              | some p => chase (dpTable eps vals) f p) := by
        rw [chase, dpTable_getD eps vals hj]
        rfl
      cases hp : dpPrevAt eps vals j with
      | none =>
        rw [hstep, hp]
        refine ⟨⟨?_, ?_, ?_⟩, ?_, rfl, ?_⟩
        · simp
        · intro p hpmem
          rw [List.reverse_singleton, List.mem_singleton] at hpmem
          rw [hpmem]
          exact hj
        · simp
        · rw [dpPrevAt_none eps vals hp]
          rfl
        · intro q hq
          rw [List.mem_singleton] at hq
          rw [hq]
      | some p =>
        obtain ⟨hpj, hplink, hplen⟩ := dpPrevAt_some eps vals hp
        have hpf : p < f := by omega
        have hpl : p < vals.length := lt_trans hpj hj
        obtain ⟨⟨ihlt, ihbd, ihtol⟩, ihlen, ihhead, ihle⟩ := ih p hpj hpl f hpf
        rw [hstep, hp]
        have hrev : (j :: chase (dpTable eps vals) f p).reverse
            = (chase (dpTable eps vals) f p).reverse ++ [j] := by
          rw [List.reverse_cons]
        have hlastrev : (chase (dpTable eps vals) f p).reverse.getLast? = some p := by
          rw [List.getLast?_reverse, ihhead]
        refine ⟨⟨?_, ?_, ?_⟩, ?_, rfl, ?_⟩
        · rw [hrev]
          rw [List.chain'_append]
          refine ⟨ihlt, List.chain'_singleton _, ?_⟩
          intro x hx z hz
          rw [hlastrev, Option.mem_def] at hx
          rw [List.head?_cons, Option.mem_def] at hz
          have hx' : x = p := (Option.some.inj hx).symm
          have hz' : z = j := (Option.some.inj hz).symm
          rw [hx', hz']
          exact hpj
        · intro q hq
          rw [hrev, List.mem_append] at hq
          rcases hq with hq | hq
          · exact ihbd q hq
          · rw [List.mem_singleton] at hq
            rw [hq]
            exact hj
        · rw [hrev]
          rw [List.chain'_append]
          refine ⟨ihtol, List.chain'_singleton _, ?_⟩
          intro x hx z hz
          rw [hlastrev, Option.mem_def] at hx
          rw [List.head?_cons, Option.mem_def] at hz
          have hx' : x = p := (Option.some.inj hx).symm
          have hz' : z = j := (Option.some.inj hz).symm
          rw [hx', hz']
          exact hplink
        · rw [List.length_cons, ihlen, hplen]
        · intro q hq
          rw [List.mem_cons] at hq
          rcases hq with hq | hq
          · rw [hq]
          · exact le_trans (ihle q hq) (le_of_lt hpj)

/-- Correctness of the cleanup DP: the kept positions (read in
ascending order) form a tolerant non-decreasing subsequence, and no
tolerant subsequence is longer. -/
lemma monoKeep_spec (eps : ℚ) (vals : List ℚ) :
    TolChain eps vals (monoKeepPositions eps vals).reverse ∧
    ∀ ps, TolChain eps vals ps →
      ps.length ≤ (monoKeepPositions eps vals).length := by
  cases hv : vals with
  | nil =>
    have hnil : monoKeepPositions eps [] = [] := by
      simp [monoKeepPositions, dpTable, dpTab, chase]
    constructor
    · rw [hnil]
      exact ⟨List.chain'_nil, by simp, List.chain'_nil⟩
    · intro ps hps
      cases ps with
      | nil => exact Nat.zero_le _
      | cons q qs => exact absurd (hps.2.1 q (List.mem_cons_self _ _)) (by simp)
  | cons v vs =>
    rw [← hv]
    have hne : vals ≠ [] := by rw [hv]; exact List.cons_ne_nil _ _
    obtain ⟨hmax_all, hbe⟩ := bestEnd_spec eps vals hne
    have hfuel : bestEnd (dpTable eps vals) < (dpTable eps vals).length := by
      unfold dpTable
      rw [dpTab_length]
      exact hbe
    obtain ⟨hc, hlenc, _, _⟩ := chase_spec eps vals (bestEnd (dpTable eps vals)) hbe
      (dpTable eps vals).length hfuel
    constructor
    · exact hc
    · intro ps hps
      rcases List.eq_nil_or_concat ps with rfl | ⟨qs, j, rfl⟩
      · exact Nat.zero_le _
      · rw [List.concat_eq_append] at hps ⊢
        have hj : j < vals.length :=
          hps.2.1 j (List.mem_append_right _ (List.mem_singleton_self _))
        have h1 := tolChain_le_dpLen eps vals qs j hps
        have h2 := hmax_all j hj
        have h3 : (qs ++ [j]).length = qs.length + 1 := by simp
        unfold monoKeepPositions
        omega

/-! ### Claim C2 -/

/-- C2.  The monotonic cleanup of `find_baseline_points`: the kept
positions of the window form a tolerant non-decreasing subsequence of
the window values that no tolerant subsequence exceeds in length
(a longest non-decreasing subsequence up to the downward tolerance),
and the indices added to the excluded set are exactly the window
indices whose position is not kept.  The window is the not-yet-excluded
points from the first baseline index onward with time at most
`mono_t_max`. -/
theorem c2_lnds_cleanup (eps : ℚ) :
    (∀ vals : List ℚ,
      TolChain eps vals (monoKeepPositions eps vals).reverse ∧
      ∀ ps, TolChain eps vals ps →
        ps.length ≤ (monoKeepPositions eps vals).length) ∧
    (∀ (t y : List ℚ) (tp bw tol : ℚ) (mc : ℕ) (mt : ℚ),
      ¬ (preIndices t tp).length < mc →
      candidateIndicesOf t y tp bw tol ≠ [] →
      2 ≤ (monoWindowOf t y tp bw tol mc mt).length →
      (find_baseline_points t y tp bw tol mc eps mt).2.2
        = insSort (preExcludedOf t y tp bw tol mc ++
            ((monoWindowOf t y tp bw tol mc mt).enum.filter (fun p =>
              p.1 ∉ monoKeepPositions eps
                ((monoWindowOf t y tp bw tol mc mt).map (fun i => y.getD i 0)))).map
              (fun p => p.2))) := by
  constructor
  · exact fun vals => monoKeep_spec eps vals
  · intro t y tp bw tol mc mt h1 h2 h3
    have hpre : preIndices t tp ≠ [] := by
      intro hc
      apply h2
      unfold candidateIndicesOf
      rw [hc]
      rfl
    have hbins := binsOf_ne_nil t y tp bw hpre
    unfold find_baseline_points
    split_ifs with hb hcnd hwin
    · exact absurd (List.isEmpty_iff.1 hb) hbins
    · exact absurd (List.isEmpty_iff.1 hcnd) h2
    · omega
    · rfl

/-- Witness for `c2_lnds_cleanup` at the downward-spike scenario. -/
theorem c2_lnds_cleanup_witness :
    2 ≤ (monoWindowOf [0, 1, 2, 3, 4] [5/100, 40/100, 80/100, 30/100, 150/100]
        45 (1/1000) (1/1000) 3 400).length ∧
    (find_baseline_points [0, 1, 2, 3, 4] [5/100, 40/100, 80/100, 30/100, 150/100]
        45 (1/1000) (1/1000) 3 0 400).2.2
      = insSort (preExcludedOf [0, 1, 2, 3, 4]
            [5/100, 40/100, 80/100, 30/100, 150/100] 45 (1/1000) (1/1000) 3 ++
          ((monoWindowOf [0, 1, 2, 3, 4] [5/100, 40/100, 80/100, 30/100, 150/100]
              45 (1/1000) (1/1000) 3 400).enum.filter (fun p =>
            p.1 ∉ monoKeepPositions 0
              ((monoWindowOf [0, 1, 2, 3, 4] [5/100, 40/100, 80/100, 30/100, 150/100]
                45 (1/1000) (1/1000) 3 400).map
                (fun i => [(5 : ℚ)/100, 40/100, 80/100, 30/100, 150/100].getD i 0)))).map
            (fun p => p.2)) := by
  have hw : 2 ≤ (monoWindowOf [0, 1, 2, 3, 4]
      [5/100, 40/100, 80/100, 30/100, 150/100] 45 (1/1000) (1/1000) 3 400).length := by
    norm_num [monoWindowOf, baselineIndicesOf, validRunsOf, runsOf,
      candidateIndicesOf, baselineLevelOf, binsOf, preIndices, preExcludedOf,
      pyMinNat, splitRuns, addToBins, pyMaxBySnd, pyMaxByLen, pyMedian, insSort,
      insSorted, pyMinQ, pyTrunc, List.range_succ, List.filter, abs_le, lt_abs]
  refine ⟨hw, (c2_lnds_cleanup 0).2 [0, 1, 2, 3, 4]
    [5/100, 40/100, 80/100, 30/100, 150/100] 45 (1/1000) (1/1000) 3 400 ?_ ?_ hw⟩
  · norm_num [preIndices, List.range_succ, List.filter]
  · norm_num [candidateIndicesOf, baselineLevelOf, binsOf, preIndices, pyMinQ,
      pyTrunc, addToBins, pyMaxBySnd, pyMedian, insSort, insSorted,
      List.range_succ, List.filter, abs_le, lt_abs]

/-! ### Claim C9 -/

lemma getD_lt_q (l : List ℚ) {j : ℕ} (h : j < l.length) :
    l.getD j 0 = l.get ⟨j, h⟩ := by
  rw [List.getD_eq_getElem?_getD, List.getElem?_eq_getElem h, Option.getD_some,
    List.get_eq_getElem]

/-- On a list whose adjacent pairs already satisfy the tolerance, every
DP length is maximal: `dp_len[j] = j + 1`. -/
lemma adj_dpLen (eps : ℚ) (vs : List ℚ)
    (hadj : List.Chain' (fun a b => a ≤ b + eps) vs) :
    ∀ j, j < vs.length → dpLenAt eps vs j = j + 1 := by
  intro j
  induction j with
  | zero =>
    intro _
    exact le_antisymm (dpLenAt_le eps vs 0) (dpLenAt_pos eps vs 0)
  | succ j ih =>
    intro h
    have hj : j < vs.length := by omega
    have hlink : vs.getD j 0 ≤ vs.getD (j + 1) 0 + eps := by
      have hchain := List.chain'_iff_get.1 hadj j (by omega)
      rw [getD_lt_q vs hj, getD_lt_q vs h]
      exact hchain
    have h1 := dpLenAt_mono_link eps vs (show j < j + 1 by omega) hlink
    have h2 := dpLenAt_le eps vs (j + 1)
    have h3 := ih hj
    show dpLenAt eps vs (j + 1) = j + 1 + 1
    omega

/-- The kept positions are pairwise distinct (they strictly decrease
along the pointer chase). -/
lemma monoKeep_nodup (eps : ℚ) (vals : List ℚ) :
    (monoKeepPositions eps vals).Nodup := by
  have hch := (monoKeep_spec eps vals).1.1
  have hpw : (monoKeepPositions eps vals).reverse.Pairwise (· < ·) :=
    List.chain'_iff_pairwise.1 hch
  have hnd : (monoKeepPositions eps vals).reverse.Nodup :=
    hpw.imp (fun h => ne_of_lt h)
  exact List.nodup_reverse.1 hnd

/-- C9.  The monotonic-cleanup step is idempotent: running the cleanup
DP a second time over the values retained by a first run keeps every
position, so no further point is excluded — the retained sequence is
already non-decreasing within the tolerance. -/
theorem c9_cleanup_idempotent (eps : ℚ) (vals : List ℚ) :
    (List.range (((monoKeepPositions eps vals).reverse.map
        (fun p => vals.getD p 0)).length)).filter
      (fun q => q ∉ monoKeepPositions eps
        ((monoKeepPositions eps vals).reverse.map (fun p => vals.getD p 0))) = [] := by
  set vs := (monoKeepPositions eps vals).reverse.map (fun p => vals.getD p 0)
    with hvs
  have hadj : List.Chain' (fun a b => a ≤ b + eps) vs := by
    rw [hvs, List.chain'_map]
    exact (monoKeep_spec eps vals).1.2.2
  have hadj' : ∀ i, i + 1 < vs.length →
      vs.getD i 0 ≤ vs.getD (i + 1) 0 + eps := by
    intro i hi
    have := List.chain'_iff_get.1 hadj i (by omega)
    rw [getD_lt_q vs (by omega), getD_lt_q vs hi]
    exact this
  have hmem : ∀ q, q < vs.length → q ∈ monoKeepPositions eps vs := by
    intro q hq
    have hrange_chain : TolChain eps vs (List.range vs.length) := by
      refine ⟨List.chain'_iff_pairwise.2 (List.pairwise_lt_range _), ?_, ?_⟩
      · intro p hp
        rw [List.mem_range] at hp
        exact hp
      · rw [List.chain'_iff_get]
        intro i hi
        rw [List.length_range] at hi
        simp only [List.get_eq_getElem, List.getElem_range]
        exact hadj' i (by omega)
    have hlen_ge : vs.length ≤ (monoKeepPositions eps vs).length := by
      have := (monoKeep_spec eps vs).2 (List.range vs.length) hrange_chain
      rw [List.length_range] at this
      exact this
    have hnodup := monoKeep_nodup eps vs
    have hbd : ∀ x ∈ monoKeepPositions eps vs, x < vs.length := by
      intro x hx
      exact (monoKeep_spec eps vs).1.2.1 x (List.mem_reverse.2 hx)
    have hsub : (monoKeepPositions eps vs).toFinset ⊆ Finset.range vs.length := by
      intro x hx
      rw [List.mem_toFinset] at hx
      rw [Finset.mem_range]
      exact hbd x hx
    have hcard : (Finset.range vs.length).card
        ≤ (monoKeepPositions eps vs).toFinset.card := by
      rw [Finset.card_range, List.toFinset_card_of_nodup hnodup]
      exact hlen_ge
    have heq := Finset.eq_of_subset_of_card_le hsub hcard
    have hqf : q ∈ (monoKeepPositions eps vs).toFinset := by
      rw [heq, Finset.mem_range]
      exact hq
    rw [List.mem_toFinset] at hqf
    exact hqf
  apply List.filter_eq_nil_iff.2
  intro q hq
  rw [List.mem_range] at hq
  simp only [decide_eq_true_eq]
  intro hc
  exact hc (hmem q hq)

/-! ### Claim C10 -/

/-- Every original index between a selected window's first and last
index is marked as log phase (the source fills
`range(start_idx, end_idx + 1)` of the mask). -/
lemma logWindow_span_marked (ln : ℚ → ℚ) (t y : List ℚ) (ws : ℕ)
    (r2m odm fkm m1 m2 : ℚ) (w : ℕ × ℕ × ℚ × ℚ)
    (hw : w ∈ logWindowsOf ln t y ws r2m odm fkm m1 m2) (i : ℕ)
    (h1 : w.1 ≤ i) (h2 : i ≤ w.2.1) (h3 : i < t.length) :
    i ∈ logMarkedOf ln t y ws r2m odm fkm m1 m2 := by
  unfold logMarkedOf
  rw [List.mem_filter]
  constructor
  · rw [List.mem_range]
    exact h3
  · rw [List.any_eq_true]
    exact ⟨w, hw, decide_eq_true ⟨h1, h2⟩⟩

/-- C10 (amended).  `detect_log_phase` marks as log phase every original
index from a selected window's first index through its last index, so
whenever a selected window whose span lies inside the returned run has
non-consecutive valid indices — an invalid gap index `g` strictly
between its endpoints — the returned `log_indices` contains an index
whose value is below `od_min`.  (When the gappy window's run is not the
longest, the filtered points reappear only in a non-returned candidate
run; see `c10_counterexample`.) -/
theorem c10_gap_reappears (ln : ℚ → ℚ) (t y : List ℚ) (ws : ℕ)
    (r2m odm fkm m1 m2 : ℚ) (w : ℕ × ℕ × ℚ × ℚ)
    (hw : w ∈ logWindowsOf ln t y ws r2m odm fkm m1 m2) :
    (∀ i, w.1 ≤ i → i ≤ w.2.1 → i < t.length →
      i ∈ logMarkedOf ln t y ws r2m odm fkm m1 m2) ∧
    (∀ g, w.1 ∈ (detect_log_phase ln t y ws r2m odm fkm m1 m2).1 →
      w.2.1 ∈ (detect_log_phase ln t y ws r2m odm fkm m1 m2).1 →
      w.1 < g → g < w.2.1 → y.getD g 0 < odm →
      ∃ i ∈ (detect_log_phase ln t y ws r2m odm fkm m1 m2).1,
        y.getD i 0 < odm) := by
  constructor
  · intro i h1 h2 h3
    exact logWindow_span_marked ln t y ws r2m odm fkm m1 m2 w hw i h1 h2 h3
  · intro g hstart hend hg1 hg2 hval
    have hchain := detect_log_phase_chain ln t y ws r2m odm fkm m1 m2
    have hgmem := chain_consec_interval hchain hstart hend (le_of_lt hg1)
      (le_of_lt hg2)
    exact ⟨g, hgmem, hval⟩

/-- C10 counterexample.  The selected window `(0, 2, 1, 1)` has a gap:
index 1 is invalid (`y[1] = 1/2 < od_min = 1`) and lies strictly inside
its span.  Yet the returned run is `[4, 5, 6, 7]` (a longer run built
from other windows), and every returned index has value at least
`od_min` — so a gappy selected window does not force a below-`od_min`
index into `log_indices`, refuting the claim as stated. -/
theorem c10_counterexample :
    (∃ w ∈ logWindowsOf id [0, 1, 2, 3, 4, 5, 6, 7]
        [2, 1/2, 4, 3, 5/2, 6, 7, 8] 2 (1/2) 1 100 0 100,
      w.1 < 1 ∧ 1 < w.2.1 ∧
        [(2 : ℚ), 1/2, 4, 3, 5/2, 6, 7, 8].getD 1 0 < 1) ∧
    ∀ i ∈ (detect_log_phase id [0, 1, 2, 3, 4, 5, 6, 7]
        [2, 1/2, 4, 3, 5/2, 6, 7, 8] 2 (1/2) 1 100 0 100).1,
      ¬ [(2 : ℚ), 1/2, 4, 3, 5/2, 6, 7, 8].getD i 0 < 1 := by
  have hlw : logWindowsOf id [0, 1, 2, 3, 4, 5, 6, 7]
      [2, 1/2, 4, 3, 5/2, 6, 7, 8] 2 (1/2) 1 100 0 100
      = [(0, 2, 1, 1), (4, 5, 7/2, 1), (5, 6, 1, 1), (6, 7, 1, 1)] := by
    norm_num [logWindowsOf, goodWindowsOf, goodWindowFn, validIndicesOf,
      kEstOf, kTailOf, pyMaxBySlope, _linear_regression, sttOf, pyMedian,
      insSort, insSorted, pyMaxQ, List.range_succ, List.filter,
      List.filterMap, List.zip_cons_cons]
  have hres : (detect_log_phase id [0, 1, 2, 3, 4, 5, 6, 7]
      [2, 1/2, 4, 3, 5/2, 6, 7, 8] 2 (1/2) 1 100 0 100).1 = [4, 5, 6, 7] := by
    norm_num [detect_log_phase, validIndicesOf, kTailOf, kEstOf, goodWindowsOf,
      goodWindowFn, muMaxOf, logWindowsOf, logMarkedOf, logRunsOf, pyMaxBySlope,
      _linear_regression, sttOf, splitRuns, pyMaxByLen, pyMedian, insSort,
      insSorted, pyMaxQ, pyMinNat, List.range_succ, List.filter, List.filterMap,
      List.zip_cons_cons]
  constructor
  · refine ⟨(0, 2, 1, 1), ?_, ?_, ?_, ?_⟩
    · rw [hlw]
      exact List.mem_cons_self _ _
    · norm_num
    · norm_num
    · norm_num
  · intro i hi
    rw [hres] at hi
    fin_cases hi <;> norm_num

/-- Witness for `c10_gap_reappears`: a series in which the gappy
selected window lies inside the returned run, and the below-`od_min`
gap index reappears in `log_indices`. -/
theorem c10_gap_reappears_witness :
    (0, 2, (1 : ℚ)/2, 1) ∈ logWindowsOf id [0, 1, 2, 3] [1, 1/2, 2, 4]
      2 (1/2) 1 100 0 100 ∧
    ∃ i ∈ (detect_log_phase id [0, 1, 2, 3] [1, 1/2, 2, 4]
        2 (1/2) 1 100 0 100).1,
      [(1 : ℚ), 1/2, 2, 4].getD i 0 < 1 := by
  have hlw : logWindowsOf id [0, 1, 2, 3] [1, 1/2, 2, 4] 2 (1/2) 1 100 0 100
      = [(0, 2, 1/2, 1), (2, 3, 2, 1)] := by
    norm_num [logWindowsOf, goodWindowsOf, goodWindowFn, validIndicesOf,
      kEstOf, kTailOf, pyMaxBySlope, _linear_regression, sttOf, pyMedian,
      insSort, insSorted, pyMaxQ, List.range_succ, List.filter,
      List.filterMap, List.zip_cons_cons]
  have hw : (0, 2, (1 : ℚ)/2, 1) ∈ logWindowsOf id [0, 1, 2, 3] [1, 1/2, 2, 4]
      2 (1/2) 1 100 0 100 := by
    rw [hlw]
    exact List.mem_cons_self _ _
  have hres : (detect_log_phase id [0, 1, 2, 3] [1, 1/2, 2, 4]
      2 (1/2) 1 100 0 100).1 = [0, 1, 2, 3] := by
    norm_num [detect_log_phase, validIndicesOf, kTailOf, kEstOf, goodWindowsOf,
      goodWindowFn, muMaxOf, logWindowsOf, logMarkedOf, logRunsOf, pyMaxBySlope,
      _linear_regression, sttOf, splitRuns, pyMaxByLen, pyMedian, insSort,
      insSorted, pyMaxQ, pyMinNat, List.range_succ, List.filter, List.filterMap,
      List.zip_cons_cons]
  refine ⟨hw, (c10_gap_reappears id [0, 1, 2, 3] [1, 1/2, 2, 4] 2 (1/2) 1 100
    0 100 (0, 2, 1/2, 1) hw).2 1 ?_ ?_ ?_ ?_ ?_⟩
  · rw [hres]
    exact List.mem_cons_self _ _
  · rw [hres]
    simp
  · norm_num
  · norm_num
  · norm_num

end Growth
